import Mathlib

/-! Package gormupdatemap, function `CreateUpdateMap`.

A shallow embedding of `create_update_map.go`. The request struct is seen the way the
function sees it through `reflect`: an ordered list of fields, each with its name, package
path, the two tag values the function looks up, and its value.

Modelling conventions:
* a Go string is the list of its Unicode code points (the text is taken to be valid UTF-8);
* `unicode.ToLower` is a table of the standard library and is a parameter of the model;
* `log.Debugf` calls are diagnostic only and are left out;
* a runtime panic is an explicit outcome.
-/

namespace GormUpdateMap

/-- Go strings, as the list of their code points. -/
abbrev GoString := List Char

/-- The kinds of `reflect.Kind`. -/
inductive Kind where
  | Invalid | Bool
  | Int | Int8 | Int16 | Int32 | Int64
  | Uint | Uint8 | Uint16 | Uint32 | Uint64 | Uintptr
  | Float32 | Float64 | Complex64 | Complex128
  | Array | Chan | Func | Interface | Map | Ptr | Slice | String | Struct | UnsafePointer
  deriving DecidableEq, Repr

/-- A `time.Time` value (its three words). -/
structure Time where
  wall : Nat
  ext : Int
  loc : Nat
  deriving DecidableEq, Repr

/-- A `reflect.Value`, given by what the accessors used in `CreateUpdateMap` return on it:
`Kind()`, `Int()`, `Uint()`, `Float()` (as IEEE-754 bits), `String()`, `Bool()`,
`Type().String()` and the type assertion `Interface().(time.Time)`. An accessor is only read
when the kind allows it. -/
structure Value where
  kind : Kind
  int : Int
  uint : Nat
  float : Nat
  string : GoString
  bool : Bool
  typeString : GoString
  asTime : Option Time
  deriving DecidableEq, Repr

/-- The value slot of a struct field, as the first test of the loop body sees it. -/
inductive FieldValue where
  /-- The field has kind `Ptr` and `IsNil()` holds. -/
  | nilPtr
  /-- The field has kind `Ptr`, is not nil, and `Elem()` is `elem`. -/
  | ptr (elem : Value)
  /-- The field has a kind other than `Ptr`; `v` is its runtime value. -/
  | nonPtr (v : Value)
  deriving DecidableEq, Repr

/-- A field of the request: `reflect.StructField` together with the field value.
`jsonTag` is `Tag.Get("json")` and `adminOnlyTag` is `Tag.Get("admin_only")`. -/
structure StructField where
  Name : GoString
  PkgPath : GoString
  jsonTag : GoString
  adminOnlyTag : GoString
  value : FieldValue
  deriving DecidableEq, Repr

/-- What is stored in the `map[string]interface{}`. -/
inductive Iface where
  | int64 (v : Int)
  | uint64 (v : Nat)
  | float64 (bits : Nat)
  | string (s : GoString)
  | bool (b : Bool)
  | time (t : Time)
  deriving DecidableEq, Repr

/-- The map `fieldsToSet`, as an association list with one entry per key. -/
abbrev UpdateMap := List (GoString × Iface)

/-- Lookup `m[k]`. -/
def mapGet : UpdateMap → GoString → Option Iface
  | [], _ => none
  | (k0, v) :: m, k => if k0 = k then some v else mapGet m k

/-- Assignment `m[k] = v`: an existing entry for `k` is replaced. -/
def mapSet (m : UpdateMap) (k : GoString) (v : Iface) : UpdateMap :=
  (k, v) :: m.filter (fun e => decide (e.1 ≠ k))

/-- Key `k` is present in `m`. -/
def HasKey (m : UpdateMap) (k : GoString) : Prop := mapGet m k ≠ none

instance (m : UpdateMap) (k : GoString) : Decidable (HasKey m k) := by
  unfold HasKey; infer_instance

/-- The result of a call: either the two returned values (a nil map is `none`, a nil
`*string` is `none`), or a runtime panic. -/
inductive Outcome where
  | returned (fieldsToSet : Option UpdateMap) (validationErr : Option GoString)
  | panicked
  deriving DecidableEq, Repr

/-- Function `strPtr` of `common.go`. -/
def strPtr (s : GoString) : Option GoString := some s

/-- Library `strings.Split(s, sep)` for a one-character separator: never empty. -/
def Split : GoString → Char → List GoString
  | [], _ => [[]]
  | c :: cs, sep =>
    if c = sep then [] :: Split cs sep
    else
      match Split cs sep with
      | [] => [[c]]
      | seg :: segs => (c :: seg) :: segs

/-- Library `strings.ToLower`: a string of ASCII only is lower-cased byte by byte;
otherwise every code point goes through `unicode.ToLower`. -/
def ToLower (unicodeToLower : Char → Char) (s : GoString) : GoString :=
  if s.all (fun c => decide (c.toNat < 128)) then s.map Char.toLower
  else s.map unicodeToLower

/-- Lines 49 and 62-72: the json tag, or the field name when the tag is empty, cut at
the first comma. -/
def resolveName (fType : StructField) : GoString :=
  let JSONTag := fType.jsonTag
  let JSONTag := if JSONTag = [] then fType.Name else JSONTag
  let JSONTagValues := Split JSONTag ','
  match JSONTagValues with
  | first :: _ => first
  | [] => JSONTag

/-- Lines 84-99: the loop over `underscoreSegments`, with `acc` the `JSONTag` built so
far. Reading byte 0 of an empty next segment panics (`none`). The byte is a digit for
`unicode.IsDigit` exactly when the segment starts with one of `0`..`9`. -/
def joinSegments : List GoString → GoString → Option GoString
  | [], acc => some acc
  | [seg], acc => some (acc ++ seg)
  | seg :: next :: rest, acc =>
    match next with
    | [] => none
    | c :: _ =>
      if c.isDigit then joinSegments (next :: rest) (acc ++ seg)
      else joinSegments (next :: rest) (acc ++ seg ++ [ '_' ])

/-- Lines 83-102: split on underscores, rebuild, lower-case. -/
def columnName (unicodeToLower : Char → Char) (JSONTag : GoString) : Option GoString :=
  let underscoreSegments := Split JSONTag '_'
  match joinSegments underscoreSegments [] with
  | none => none
  | some JSONTag => some (ToLower unicodeToLower JSONTag)

/-- Line 78: the validation message. -/
def adminOnlyMessage (JSONTag : GoString) : GoString :=
  "Only admins can update field '".toList ++ JSONTag ++ "'.".toList

/-- Lines 104-123: the switch on `val.Kind()`. -/
def storeValue (fieldsToSet : UpdateMap) (JSONTag : GoString) (val : Value) : UpdateMap :=
  match val.kind with
  | .Int | .Int8 | .Int16 | .Int32 | .Int64 => mapSet fieldsToSet JSONTag (.int64 val.int)
  | .Uint | .Uint8 | .Uint16 | .Uint32 | .Uint64 => mapSet fieldsToSet JSONTag (.uint64 val.uint)
  | .Float32 | .Float64 => mapSet fieldsToSet JSONTag (.float64 val.float)
  | .String => mapSet fieldsToSet JSONTag (.string val.string)
  | .Bool => mapSet fieldsToSet JSONTag (.bool val.bool)
  | .Struct =>
    if val.typeString = "time.Time".toList then
      match val.asTime with
      | some v => mapSet fieldsToSet JSONTag (.time v)
      | none => fieldsToSet
    else fieldsToSet
  | _ => fieldsToSet

/-- How one pass through the loop body ends: with `continue` or the end of the body
(`next`, carrying the map), or by leaving the function (`stop`). -/
inductive Step where
  | next (fieldsToSet : UpdateMap)
  | stop (result : Outcome)
  deriving DecidableEq, Repr

/-- Lines 29-123: the loop body for field `fType`. -/
def loopBody (unicodeToLower : Char → Char) (isAdmin : Bool) (fType : StructField)
    (fieldsToSet : UpdateMap) : Step :=
  match fType.value with
  | .nilPtr => .next fieldsToSet
  | .nonPtr _ => .next fieldsToSet
  | .ptr val =>
    if fType.PkgPath ≠ [] then .next fieldsToSet
    else if fType.jsonTag = [ '-' ] then .next fieldsToSet
    else
      let JSONTag := resolveName fType
      let adminTag := fType.adminOnlyTag
      if adminTag ≠ [] ∧ isAdmin = false then
        .stop (.returned none (strPtr (adminOnlyMessage JSONTag)))
      else
        match columnName unicodeToLower JSONTag with
        | none => .stop .panicked
        | some JSONTag => .next (storeValue fieldsToSet JSONTag val)

/-- Lines 28-126: the loop over the fields, then `return fieldsToSet, nil`. -/
def fieldLoop (unicodeToLower : Char → Char) (isAdmin : Bool) :
    List StructField → UpdateMap → Outcome
  | [], fieldsToSet => .returned (some fieldsToSet) none
  | fType :: rest, fieldsToSet =>
    match loopBody unicodeToLower isAdmin fType fieldsToSet with
    | .next fieldsToSet => fieldLoop unicodeToLower isAdmin rest fieldsToSet
    | .stop result => result

/-- Function `CreateUpdateMap` on a struct with the given fields. -/
def CreateUpdateMap (unicodeToLower : Char → Char) (updateRequestStruct : List StructField)
    (isAdmin : Bool) : Outcome :=
  fieldLoop unicodeToLower isAdmin updateRequestStruct []

/-! ## Values and fields for concrete requests -/

/-- A `bool` seen through `reflect`. -/
def boolValue (b : Bool) : Value :=
  ⟨.Bool, 0, 0, 0, [], b, "bool".toList, none⟩

/-- A `float64` seen through `reflect`, by its bits. -/
def float64Value (bits : Nat) : Value :=
  ⟨.Float64, 0, 0, bits, [], false, "float64".toList, none⟩

/-- An exported field with the given name, tags and value. -/
def exportedField (name jsonTag adminOnlyTag : String) (value : FieldValue) : StructField :=
  ⟨name.toList, [], jsonTag.toList, adminOnlyTag.toList, value⟩

/-- A `*bool` field value: nil, or a pointer to the given bool. -/
def boolPtr : Option Bool → FieldValue
  | none => .nilPtr
  | some b => .ptr (boolValue b)

/-- The struct `t` of the test file, with the given values of its five fields. -/
def testStruct (field1 field2 field3 : Option Bool) (field4 : Bool) (field5 : Option Bool) :
    List StructField :=
  [exportedField "Field1" "field_one" "" (boolPtr field1),
   exportedField "Field2" "field_two" "" (boolPtr field2),
   exportedField "Field3" "field_three" "true" (boolPtr field3),
   exportedField "Field4" "field_four" "" (.nonPtr (boolValue field4)),
   exportedField "Field5" "field_five,omitempty" "" (boolPtr field5)]

/-! ## Predicates used to state the properties -/

/-- The kinds read with `Int()`. -/
def signedIntKinds : List Kind := [.Int, .Int8, .Int16, .Int32, .Int64]

/-- The kinds read with `Uint()`. -/
def unsignedIntKinds : List Kind := [.Uint, .Uint8, .Uint16, .Uint32, .Uint64]

/-- The kinds read with `Float()`. -/
def floatKinds : List Kind := [.Float32, .Float64]

/-- The value is a `time.Time`: a struct whose type prints as `time.Time` and for which
the type assertion succeeds. -/
def IsTimeValue (val : Value) : Prop :=
  val.kind = .Struct ∧ val.typeString = "time.Time".toList ∧ val.asTime ≠ none

/-- The value has one of the supported kinds: signed int, unsigned int, float, string,
bool, or `time.Time`. -/
def SupportedValue (val : Value) : Prop :=
  val.kind ∈ signedIntKinds ∨ val.kind ∈ unsignedIntKinds ∨ val.kind ∈ floatKinds ∨
    val.kind = .String ∨ val.kind = .Bool ∨ IsTimeValue val

instance (val : Value) : Decidable (SupportedValue val) := by
  unfold SupportedValue IsTimeValue; infer_instance

/-- The field is a non-nil pointer to `val`, is exported, and its json tag is not `-`. -/
def Eligible (f : StructField) (val : Value) : Prop :=
  f.value = .ptr val ∧ f.PkgPath = [] ∧ f.jsonTag ≠ [ '-' ]

instance (f : StructField) (val : Value) : Decidable (Eligible f val) := by
  unfold Eligible; infer_instance

/-- The field is eligible, points to a supported value, and its transformed name is `k`. -/
def Contributes (unicodeToLower : Char → Char) (f : StructField) (k : GoString) : Prop :=
  ∃ val, Eligible f val ∧ SupportedValue val ∧
    columnName unicodeToLower (resolveName f) = some k

/-- The field is eligible and carries a non-empty `admin_only` tag. -/
def Restricted (f : StructField) : Prop :=
  (∃ val, Eligible f val) ∧ f.adminOnlyTag ≠ []

/-- The field with its `admin_only` tag removed. -/
def clearAdminOnly (f : StructField) : StructField :=
  ⟨f.Name, f.PkgPath, f.jsonTag, [], f.value⟩

/-- The field with another json tag. -/
def withJSONTag (f : StructField) (tag : GoString) : StructField :=
  ⟨f.Name, f.PkgPath, tag, f.adminOnlyTag, f.value⟩

/-- The part of a tag before its first comma. -/
def firstCommaSegment (tag : GoString) : GoString :=
  tag.takeWhile (fun c => decide (c ≠ ','))

/-- The segment begins with a decimal digit. -/
def beginsWithDigit : GoString → Bool
  | [] => false
  | c :: _ => c.isDigit

/-- The segments concatenated in order, with an underscore kept between a segment and
the next exactly when the next does not begin with a decimal digit. -/
def joinSpec : List GoString → GoString
  | [] => []
  | [seg] => seg
  | seg :: next :: rest =>
    seg ++ (if beginsWithDigit next then [] else [ '_' ]) ++ joinSpec (next :: rest)

/-- The pointed-to value read by its declared kind: the signed integer as int64, the
unsigned integer as uint64, the float as float64, the string, the bool, the `time.Time`
value of a struct whose type is `time.Time`; nothing for any other kind. -/
def readValue (val : Value) : Option Iface :=
  if val.kind ∈ signedIntKinds then some (.int64 val.int)
  else if val.kind ∈ unsignedIntKinds then some (.uint64 val.uint)
  else if val.kind ∈ floatKinds then some (.float64 val.float)
  else if val.kind = .String then some (.string val.string)
  else if val.kind = .Bool then some (.bool val.bool)
  else if val.kind = .Struct ∧ val.typeString = "time.Time".toList then
    val.asTime.map Iface.time
  else none

/-- A `[]string` seen through `reflect`. -/
def sliceValue : Value :=
  ⟨.Slice, 0, 0, 0, [], false, "[]string".toList, none⟩

/-- The string contains an underscore immediately followed by a decimal digit. -/
def HasUnderscoreDigit (s : GoString) : Prop :=
  ∃ pre d post, s = pre ++ '_' :: d :: post ∧ d.isDigit = true

/-- The string begins with a character that is neither an underscore nor a decimal
digit. -/
def startsPlain : GoString → Bool
  | [] => false
  | d :: _ => decide (d ≠ '_') && !d.isDigit

/-- Column form: every underscore of the string is followed by a character that is
neither an underscore nor a decimal digit. -/
def ColumnForm : GoString → Prop
  | [] => True
  | c :: rest => (c = '_' → startsPlain rest = true) ∧ ColumnForm rest

/-! ## The map -/

theorem mapGet_filter_ne (m : UpdateMap) (k k1 : GoString) (h : k ≠ k1) :
    mapGet (m.filter (fun e => decide (e.1 ≠ k))) k1 = mapGet m k1 := by
  induction m with
  | nil => rfl
  | cons e m ih =>
    obtain ⟨k0, v0⟩ := e
    rw [List.filter_cons]
    by_cases h0 : k0 = k
    · have hne : k0 ≠ k1 := h0 ▸ h
      rw [if_neg (by simpa using h0), ih, mapGet, if_neg hne]
    · rw [if_pos (by simpa using h0), mapGet, mapGet, ih]

theorem mapGet_mapSet (m : UpdateMap) (k k1 : GoString) (v : Iface) :
    mapGet (mapSet m k v) k1 = if k = k1 then some v else mapGet m k1 := by
  unfold mapSet
  rw [mapGet]
  by_cases h : k = k1
  · rw [if_pos h, if_pos h]
  · rw [if_neg h, if_neg h, mapGet_filter_ne m k k1 h]

theorem hasKey_mapSet (m : UpdateMap) (k k1 : GoString) (v : Iface) :
    HasKey (mapSet m k v) k1 ↔ HasKey m k1 ∨ k = k1 := by
  unfold HasKey
  rw [mapGet_mapSet]
  by_cases h : k = k1 <;> simp [h]

theorem hasKey_storeValue (m : UpdateMap) (key k : GoString) (val : Value) :
    HasKey (storeValue m key val) k ↔ HasKey m k ∨ (SupportedValue val ∧ key = k) := by
  unfold storeValue SupportedValue IsTimeValue signedIntKinds unsignedIntKinds floatKinds
  cases hk : val.kind <;> simp only [hasKey_mapSet] <;> simp
  split
  · next ht => cases ha : val.asTime <;> simp [ht, hasKey_mapSet]
  · next ht => simp [ht]

/-! ## Splitting -/

theorem split_ne_nil (s : GoString) (sep : Char) : Split s sep ≠ [] := by
  cases s with
  | nil => simp [Split]
  | cons c cs =>
    rw [Split]
    split
    · simp
    · split <;> simp

/-- The first piece of a split is what precedes the first separator. -/
theorem split_head (s : GoString) (sep : Char) :
    ∃ segs, Split s sep = s.takeWhile (fun c => decide (c ≠ sep)) :: segs := by
  induction s with
  | nil => exact ⟨[], rfl⟩
  | cons c cs ih =>
    obtain ⟨segs, hs⟩ := ih
    rw [Split]
    by_cases hc : c = sep
    · rw [if_pos hc]
      exact ⟨Split cs sep, by simp [List.takeWhile, hc]⟩
    · rw [if_neg hc, hs]
      exact ⟨segs, by simp [List.takeWhile, hc]⟩

theorem resolveName_eq (f : StructField) :
    resolveName f = firstCommaSegment (if f.jsonTag = [] then f.Name else f.jsonTag) := by
  unfold resolveName firstCommaSegment
  obtain ⟨segs, hs⟩ := split_head (if f.jsonTag = [] then f.Name else f.jsonTag) ','
  simp only [hs]

/-! ## The loop body -/

theorem loopBody_of_not_eligible (unicodeToLower : Char → Char) (isAdmin : Bool)
    (f : StructField) (m : UpdateMap) (h : ∀ val, ¬ Eligible f val) :
    loopBody unicodeToLower isAdmin f m = .next m := by
  unfold loopBody
  cases hv : f.value with
  | nilPtr => rfl
  | nonPtr v => rfl
  | ptr val =>
    by_cases hp : f.PkgPath = []
    · by_cases hj : f.jsonTag = [ '-' ]
      · simp [hp, hj]
      · exact absurd ⟨hv, hp, hj⟩ (h val)
    · simp [hp]

theorem loopBody_of_eligible (unicodeToLower : Char → Char) (isAdmin : Bool)
    (f : StructField) (m : UpdateMap) (val : Value) (h : Eligible f val) :
    loopBody unicodeToLower isAdmin f m =
      if f.adminOnlyTag ≠ [] ∧ isAdmin = false then
        .stop (.returned none (some (adminOnlyMessage (resolveName f))))
      else
        match columnName unicodeToLower (resolveName f) with
        | none => .stop .panicked
        | some key => .next (storeValue m key val) := by
  obtain ⟨hv, hp, hj⟩ := h
  unfold loopBody
  rw [hv]
  simp only [hp, hj, ne_eq, not_true_eq_false, if_false, strPtr]

theorem eligible_or_not (f : StructField) : (∃ val, Eligible f val) ∨ ∀ val, ¬ Eligible f val := by
  by_cases h : ∃ val, Eligible f val
  · exact Or.inl h
  · exact Or.inr (fun val hv => h ⟨val, hv⟩)

theorem eligible_value_unique {f : StructField} {v w : Value} (hv : Eligible f v)
    (hw : Eligible f w) : v = w := by
  have h := hv.1.symm.trans hw.1
  exact FieldValue.ptr.inj h

/-! ## The loop -/

theorem fieldLoop_cons_next (unicodeToLower : Char → Char) (isAdmin : Bool) (f : StructField)
    (rest : List StructField) (m m1 : UpdateMap)
    (h : loopBody unicodeToLower isAdmin f m = .next m1) :
    fieldLoop unicodeToLower isAdmin (f :: rest) m = fieldLoop unicodeToLower isAdmin rest m1 := by
  rw [fieldLoop, h]

theorem fieldLoop_cons_stop (unicodeToLower : Char → Char) (isAdmin : Bool) (f : StructField)
    (rest : List StructField) (m : UpdateMap) (r : Outcome)
    (h : loopBody unicodeToLower isAdmin f m = .stop r) :
    fieldLoop unicodeToLower isAdmin (f :: rest) m = r := by
  rw [fieldLoop, h]

/-- Replacing the tail of the field list by one on which the loop behaves the same (with
possibly another flag) leaves the result unchanged. -/
theorem fieldLoop_append_congr (unicodeToLower : Char → Char) (isAdmin : Bool)
    (pre post1 post2 : List StructField)
    (h : ∀ m, fieldLoop unicodeToLower isAdmin post1 m = fieldLoop unicodeToLower isAdmin post2 m) :
    ∀ m, fieldLoop unicodeToLower isAdmin (pre ++ post1) m
      = fieldLoop unicodeToLower isAdmin (pre ++ post2) m := by
  induction pre with
  | nil => exact h
  | cons f pre ih =>
    intro m
    simp only [List.cons_append, fieldLoop]
    cases loopBody unicodeToLower isAdmin f m with
    | next m1 => exact ih m1
    | stop r => rfl

/-- On success, the keys of the result are those of the starting map and those of the
contributing fields. -/
theorem fieldLoop_keys (unicodeToLower : Char → Char) (isAdmin : Bool)
    (fs : List StructField) :
    ∀ (m0 m : UpdateMap),
      fieldLoop unicodeToLower isAdmin fs m0 = .returned (some m) none →
      ∀ k, HasKey m k ↔ HasKey m0 k ∨ ∃ f ∈ fs, Contributes unicodeToLower f k := by
  induction fs with
  | nil =>
    intro m0 m h k
    simp only [fieldLoop, Outcome.returned.injEq, Option.some.injEq, and_true] at h
    subst h
    simp
  | cons f fs ih =>
    intro m0 m h k
    rcases eligible_or_not f with ⟨val, hel⟩ | hne
    · have hb := loopBody_of_eligible unicodeToLower isAdmin f m0 val hel
      by_cases ha : f.adminOnlyTag ≠ [] ∧ isAdmin = false
      · rw [if_pos ha] at hb
        rw [fieldLoop_cons_stop _ _ _ _ _ _ hb] at h
        simp at h
      · rw [if_neg ha] at hb
        cases hc : columnName unicodeToLower (resolveName f) with
        | none =>
          rw [hc] at hb
          rw [fieldLoop_cons_stop _ _ _ _ _ _ hb] at h
          simp at h
        | some key =>
          rw [hc] at hb
          rw [fieldLoop_cons_next _ _ _ _ _ _ hb] at h
          rw [ih _ _ h k, hasKey_storeValue]
          constructor
          · rintro ((hk | ⟨hs, rfl⟩) | ⟨g, hg, hcg⟩)
            · exact Or.inl hk
            · exact Or.inr ⟨f, List.mem_cons_self _ _, val, hel, hs, hc⟩
            · exact Or.inr ⟨g, List.mem_cons_of_mem _ hg, hcg⟩
          · rintro (hk | ⟨g, hg, hcg⟩)
            · exact Or.inl (Or.inl hk)
            · rcases List.mem_cons.mp hg with rfl | hg
              · obtain ⟨w, hw, hs, hcw⟩ := hcg
                have hvw : val = w := eligible_value_unique hel hw
                subst hvw
                rw [hc] at hcw
                exact Or.inl (Or.inr ⟨hs, Option.some.inj hcw⟩)
              · exact Or.inr ⟨g, hg, hcg⟩
    · rw [fieldLoop_cons_next _ _ _ _ _ _ (loopBody_of_not_eligible _ _ _ _ hne)] at h
      rw [ih _ _ h k]
      constructor
      · rintro (hk | ⟨g, hg, hcg⟩)
        · exact Or.inl hk
        · exact Or.inr ⟨g, List.mem_cons_of_mem _ hg, hcg⟩
      · rintro (hk | ⟨g, hg, hcg⟩)
        · exact Or.inl hk
        · rcases List.mem_cons.mp hg with rfl | hg
          · obtain ⟨w, hw, _⟩ := hcg
            exact absurd hw (hne w)
          · exact Or.inr ⟨g, hg, hcg⟩

/-- A call that returns a validation error returns a nil map, was made without admin
permission, and the message names the first restricted field. -/
theorem fieldLoop_error (unicodeToLower : Char → Char) (isAdmin : Bool)
    (fs : List StructField) :
    ∀ (m0 : UpdateMap) (mm : Option UpdateMap) (msg : GoString),
      fieldLoop unicodeToLower isAdmin fs m0 = .returned mm (some msg) →
      mm = none ∧ isAdmin = false ∧ ∃ pre f post, fs = pre ++ f :: post ∧
        (∀ g ∈ pre, ¬ Restricted g) ∧ Restricted f ∧
        msg = adminOnlyMessage (resolveName f) := by
  induction fs with
  | nil =>
    intro m0 mm msg h
    simp [fieldLoop] at h
  | cons f fs ih =>
    intro m0 mm msg h
    rcases eligible_or_not f with ⟨val, hel⟩ | hne
    · have hb := loopBody_of_eligible unicodeToLower isAdmin f m0 val hel
      by_cases ha : f.adminOnlyTag ≠ [] ∧ isAdmin = false
      · rw [if_pos ha] at hb
        rw [fieldLoop_cons_stop _ _ _ _ _ _ hb] at h
        simp only [Outcome.returned.injEq, Option.some.injEq] at h
        exact ⟨h.1.symm, ha.2, [], f, fs, rfl, by simp, ⟨⟨val, hel⟩, ha.1⟩, h.2.symm⟩
      · rw [if_neg ha] at hb
        cases hc : columnName unicodeToLower (resolveName f) with
        | none =>
          rw [hc] at hb
          rw [fieldLoop_cons_stop _ _ _ _ _ _ hb] at h
          simp at h
        | some key =>
          rw [hc] at hb
          rw [fieldLoop_cons_next _ _ _ _ _ _ hb] at h
          obtain ⟨h1, h2, pre, g, post, hfs, hpre, hg, hmsg⟩ := ih _ _ _ h
          refine ⟨h1, h2, f :: pre, g, post, by rw [hfs]; rfl, ?_, hg, hmsg⟩
          intro x hx
          rcases List.mem_cons.mp hx with rfl | hx
          · exact fun hr => ha ⟨hr.2, h2⟩
          · exact hpre x hx
    · rw [fieldLoop_cons_next _ _ _ _ _ _ (loopBody_of_not_eligible _ _ _ _ hne)] at h
      obtain ⟨h1, h2, pre, g, post, hfs, hpre, hg, hmsg⟩ := ih _ _ _ h
      refine ⟨h1, h2, f :: pre, g, post, by rw [hfs]; rfl, ?_, hg, hmsg⟩
      intro x hx
      rcases List.mem_cons.mp hx with rfl | hx
      · exact fun hr => hr.1.elim (fun w hw => hne w hw)
      · exact hpre x hx

/-- A call that returns without a validation error returns a map. -/
theorem fieldLoop_success_map (unicodeToLower : Char → Char) (isAdmin : Bool)
    (fs : List StructField) :
    ∀ (m0 : UpdateMap) (mm : Option UpdateMap),
      fieldLoop unicodeToLower isAdmin fs m0 = .returned mm none → ∃ m, mm = some m := by
  induction fs with
  | nil =>
    intro m0 mm h
    simp only [fieldLoop, Outcome.returned.injEq, and_true] at h
    exact ⟨m0, h.symm⟩
  | cons f fs ih =>
    intro m0 mm h
    rw [fieldLoop] at h
    cases hb : loopBody unicodeToLower isAdmin f m0 with
    | next m1 =>
      rw [hb] at h
      exact ih _ _ h
    | stop r =>
      rw [hb] at h
      simp only at h
      subst h
      rcases eligible_or_not f with ⟨val, hel⟩ | hne
      · rw [loopBody_of_eligible unicodeToLower isAdmin f m0 val hel] at hb
        split at hb
        · simp at hb
        · split at hb <;> simp at hb
      · rw [loopBody_of_not_eligible _ _ _ _ hne] at hb
        simp at hb

/-- On a call that returns, the transformed name of every eligible field that the loop
reached is defined; on success that is every eligible field. -/
theorem fieldLoop_success_columnName (unicodeToLower : Char → Char) (isAdmin : Bool)
    (fs : List StructField) :
    ∀ (m0 m : UpdateMap),
      fieldLoop unicodeToLower isAdmin fs m0 = .returned (some m) none →
      ∀ f ∈ fs, ∀ val, Eligible f val →
        ∃ k, columnName unicodeToLower (resolveName f) = some k := by
  induction fs with
  | nil => intro m0 m _ f hf; simp at hf
  | cons g fs ih =>
    intro m0 m h f hf val hel
    rw [fieldLoop] at h
    cases hb : loopBody unicodeToLower isAdmin g m0 with
    | stop r =>
      rw [hb] at h
      simp only at h
      subst h
      rcases eligible_or_not g with ⟨w, hw⟩ | hne
      · rw [loopBody_of_eligible unicodeToLower isAdmin g m0 w hw] at hb
        split at hb
        · simp at hb
        · split at hb <;> simp at hb
      · rw [loopBody_of_not_eligible _ _ _ _ hne] at hb
        simp at hb
    | next m1 =>
      rw [hb] at h
      rcases List.mem_cons.mp hf with rfl | hf
      · rw [loopBody_of_eligible unicodeToLower isAdmin f m0 val hel] at hb
        split at hb
        · simp at hb
        · cases hc : columnName unicodeToLower (resolveName f) with
          | none => simp [hc] at hb
          | some key => exact ⟨key, rfl⟩
      · exact ih _ _ h f hf val hel

/-! ## Which keys the returned map has -/

/-- C1: when `CreateUpdateMap` returns without a validation error, it returns a map, and a
string `k` is a key of that map exactly when some field of the request is a non-nil
pointer, is exported, has a json tag other than `-`, points to a value of a supported kind,
and has transformed name `k`. -/
theorem createUpdateMap_keys_iff (unicodeToLower : Char → Char) (req : List StructField)
    (isAdmin : Bool) (mm : Option UpdateMap)
    (h : CreateUpdateMap unicodeToLower req isAdmin = .returned mm none) :
    ∃ m, mm = some m ∧ ∀ k, HasKey m k ↔
      ∃ f ∈ req, ∃ val, f.value = .ptr val ∧ f.PkgPath = [] ∧ f.jsonTag ≠ [ '-' ] ∧
        SupportedValue val ∧ columnName unicodeToLower (resolveName f) = some k := by
  obtain ⟨m, rfl⟩ := fieldLoop_success_map unicodeToLower isAdmin req [] mm h
  refine ⟨m, rfl, fun k => ?_⟩
  rw [fieldLoop_keys unicodeToLower isAdmin req [] m h k]
  constructor
  · rintro (hk | ⟨f, hf, val, ⟨h1, h2, h3⟩, h4, h5⟩)
    · exact absurd rfl hk
    · exact ⟨f, hf, val, h1, h2, h3, h4, h5⟩
  · rintro ⟨f, hf, val, h1, h2, h3, h4, h5⟩
    exact Or.inr ⟨f, hf, val, ⟨h1, h2, h3⟩, h4, h5⟩

theorem createUpdateMap_keys_iff_witness :
    CreateUpdateMap Char.toLower (testStruct none (some false) none true (some true)) false
        = .returned (some [("field_five".toList, .bool true), ("field_two".toList, .bool false)])
            none ∧
      ∃ m, some [("field_five".toList, Iface.bool true), ("field_two".toList, Iface.bool false)]
          = some m ∧
        ∀ k, HasKey m k ↔
          ∃ f ∈ testStruct none (some false) none true (some true), ∃ val,
            f.value = .ptr val ∧ f.PkgPath = [] ∧ f.jsonTag ≠ [ '-' ] ∧
              SupportedValue val ∧ columnName Char.toLower (resolveName f) = some k :=
  ⟨by decide, createUpdateMap_keys_iff Char.toLower _ false _ (by decide)⟩

/-- C2: on a successful call, every field that is a non-nil pointer to a bool, an integer
(kinds Int..Int64, Uint..Uint64), a float or a string, is exported and is not tagged `-`
has its transformed name as a key of the returned map, whatever the pointed-to value is,
the zero value included. -/
theorem createUpdateMap_present_field_has_key (unicodeToLower : Char → Char)
    (req : List StructField) (isAdmin : Bool) (m : UpdateMap) (f : StructField) (val : Value)
    (h : CreateUpdateMap unicodeToLower req isAdmin = .returned (some m) none)
    (hf : f ∈ req) (hptr : f.value = .ptr val) (hexp : f.PkgPath = [])
    (htag : f.jsonTag ≠ [ '-' ])
    (hkind : val.kind = .Bool ∨ val.kind ∈ signedIntKinds ∨ val.kind ∈ unsignedIntKinds ∨
      val.kind ∈ floatKinds ∨ val.kind = .String) :
    ∃ k, columnName unicodeToLower (resolveName f) = some k ∧ HasKey m k := by
  have hel : Eligible f val := ⟨hptr, hexp, htag⟩
  obtain ⟨k, hk⟩ := fieldLoop_success_columnName unicodeToLower isAdmin req [] m h f hf val hel
  refine ⟨k, hk, ?_⟩
  rw [fieldLoop_keys unicodeToLower isAdmin req [] m h k]
  refine Or.inr ⟨f, hf, val, hel, ?_, hk⟩
  unfold SupportedValue
  rcases hkind with h1 | h1 | h1 | h1 | h1
  · exact Or.inr (Or.inr (Or.inr (Or.inr (Or.inl h1))))
  · exact Or.inl h1
  · exact Or.inr (Or.inl h1)
  · exact Or.inr (Or.inr (Or.inl h1))
  · exact Or.inr (Or.inr (Or.inr (Or.inl h1)))

theorem createUpdateMap_present_field_has_key_witness :
    CreateUpdateMap Char.toLower (testStruct (some false) none none false none) false
        = .returned (some [("field_one".toList, .bool false)]) none ∧
      ∃ k, columnName Char.toLower
          (resolveName (exportedField "Field1" "field_one" "" (boolPtr (some false)))) = some k ∧
        HasKey [("field_one".toList, Iface.bool false)] k :=
  ⟨by decide,
    createUpdateMap_present_field_has_key Char.toLower
      (testStruct (some false) none none false none) false _
      (exportedField "Field1" "field_one" "" (boolPtr (some false))) (boolValue false)
      (by decide) (by decide) rfl rfl (by decide) (Or.inl rfl)⟩

/-! ## Fields that are skipped -/

theorem createUpdateMap_skip (unicodeToLower : Char → Char) (isAdmin : Bool)
    (pre post : List StructField) (f : StructField) (h : ∀ val, ¬ Eligible f val) :
    CreateUpdateMap unicodeToLower (pre ++ f :: post) isAdmin
      = CreateUpdateMap unicodeToLower (pre ++ post) isAdmin := by
  unfold CreateUpdateMap
  apply fieldLoop_append_congr
  intro m
  exact fieldLoop_cons_next _ _ _ _ _ _ (loopBody_of_not_eligible _ _ _ _ h)

theorem createUpdateMap_skip_no_key (unicodeToLower : Char → Char) (isAdmin : Bool)
    (pre post : List StructField) (f : StructField) (h : ∀ val, ¬ Eligible f val)
    (m : UpdateMap) (k : GoString)
    (hs : CreateUpdateMap unicodeToLower (pre ++ f :: post) isAdmin = .returned (some m) none)
    (hk : ∀ g ∈ pre ++ post, ¬ Contributes unicodeToLower g k) : ¬ HasKey m k := by
  rw [createUpdateMap_skip unicodeToLower isAdmin pre post f h] at hs
  rw [fieldLoop_keys unicodeToLower isAdmin (pre ++ post) [] m hs k]
  rintro (h0 | ⟨g, hg, hc⟩)
  · exact h0 rfl
  · exact hk g hg hc

/-- C3: a field whose value is a nil pointer contributes nothing, with or without an
`admin_only` tag: the call yields what it yields on the request without that field (same
map, same validation error); and on success a key that no other field contributes is not
in the map. -/
theorem createUpdateMap_nil_field (unicodeToLower : Char → Char) (isAdmin : Bool)
    (pre post : List StructField) (f : StructField) (hnil : f.value = .nilPtr) :
    CreateUpdateMap unicodeToLower (pre ++ f :: post) isAdmin
        = CreateUpdateMap unicodeToLower (pre ++ post) isAdmin ∧
      ∀ m k,
        CreateUpdateMap unicodeToLower (pre ++ f :: post) isAdmin = .returned (some m) none →
        (∀ g ∈ pre ++ post, ¬ Contributes unicodeToLower g k) → ¬ HasKey m k := by
  have hne : ∀ val, ¬ Eligible f val := by
    intro val hel
    rw [hel.1] at hnil
    exact FieldValue.noConfusion hnil
  exact ⟨createUpdateMap_skip _ _ _ _ _ hne,
    fun m k hs hk => createUpdateMap_skip_no_key _ _ _ _ _ hne m k hs hk⟩

theorem createUpdateMap_nil_field_witness :
    (exportedField "Field3" "field_three" "true" (boolPtr none)).value = .nilPtr ∧
    CreateUpdateMap Char.toLower
        ([exportedField "Field2" "field_two" "" (boolPtr (some false))] ++
          exportedField "Field3" "field_three" "true" (boolPtr none) :: []) false
      = CreateUpdateMap Char.toLower
        ([exportedField "Field2" "field_two" "" (boolPtr (some false))] ++ []) false ∧
    CreateUpdateMap Char.toLower
        ([exportedField "Field2" "field_two" "" (boolPtr (some false))] ++
          exportedField "Field3" "field_three" "true" (boolPtr none) :: []) false
      = .returned (some [("field_two".toList, .bool false)]) none ∧
    (∀ g ∈ [exportedField "Field2" "field_two" "" (boolPtr (some false))] ++ [],
      ¬ Contributes Char.toLower g "field_three".toList) ∧
    ¬ HasKey [("field_two".toList, Iface.bool false)] "field_three".toList :=
  have hk : ∀ g ∈ [exportedField "Field2" "field_two" "" (boolPtr (some false))] ++ [],
      ¬ Contributes Char.toLower g "field_three".toList := by
    intro g hg
    rintro ⟨val, _, _, hc⟩
    simp only [List.append_nil, List.mem_singleton] at hg
    subst hg
    revert hc
    decide
  ⟨rfl, (createUpdateMap_nil_field Char.toLower false _ _ _ rfl).1, by decide, hk,
    (createUpdateMap_nil_field Char.toLower false
      [exportedField "Field2" "field_two" "" (boolPtr (some false))] []
      (exportedField "Field3" "field_three" "true" (boolPtr none)) rfl).2 _ _ (by decide) hk⟩

/-- C4: a field of a non-pointer type contributes nothing, whatever its runtime value:
the call yields what it yields on the request without that field (same map, same
validation error); and on success a key that no other field contributes is not in the
map. -/
theorem createUpdateMap_non_pointer_field (unicodeToLower : Char → Char) (isAdmin : Bool)
    (pre post : List StructField) (f : StructField) (v : Value) (hv : f.value = .nonPtr v) :
    CreateUpdateMap unicodeToLower (pre ++ f :: post) isAdmin
        = CreateUpdateMap unicodeToLower (pre ++ post) isAdmin ∧
      ∀ m k,
        CreateUpdateMap unicodeToLower (pre ++ f :: post) isAdmin = .returned (some m) none →
        (∀ g ∈ pre ++ post, ¬ Contributes unicodeToLower g k) → ¬ HasKey m k := by
  have hne : ∀ val, ¬ Eligible f val := by
    intro val hel
    rw [hel.1] at hv
    exact FieldValue.noConfusion hv
  exact ⟨createUpdateMap_skip _ _ _ _ _ hne,
    fun m k hs hk => createUpdateMap_skip_no_key _ _ _ _ _ hne m k hs hk⟩

theorem createUpdateMap_non_pointer_field_witness :
    (exportedField "Field4" "field_four" "true" (.nonPtr (boolValue true))).value
      = .nonPtr (boolValue true) ∧
    CreateUpdateMap Char.toLower
        ([exportedField "Field1" "field_one" "" (boolPtr (some true))] ++
          exportedField "Field4" "field_four" "true" (.nonPtr (boolValue true)) :: []) false
      = CreateUpdateMap Char.toLower
        ([exportedField "Field1" "field_one" "" (boolPtr (some true))] ++ []) false ∧
    CreateUpdateMap Char.toLower
        ([exportedField "Field1" "field_one" "" (boolPtr (some true))] ++
          exportedField "Field4" "field_four" "true" (.nonPtr (boolValue true)) :: []) false
      = .returned (some [("field_one".toList, .bool true)]) none ∧
    (∀ g ∈ [exportedField "Field1" "field_one" "" (boolPtr (some true))] ++ [],
      ¬ Contributes Char.toLower g "field_four".toList) ∧
    ¬ HasKey [("field_one".toList, Iface.bool true)] "field_four".toList :=
  have hk : ∀ g ∈ [exportedField "Field1" "field_one" "" (boolPtr (some true))] ++ [],
      ¬ Contributes Char.toLower g "field_four".toList := by
    intro g hg
    rintro ⟨val, _, _, hc⟩
    simp only [List.append_nil, List.mem_singleton] at hg
    subst hg
    revert hc
    decide
  ⟨rfl, (createUpdateMap_non_pointer_field Char.toLower false _ _ _ (boolValue true) rfl).1,
    by decide, hk,
    (createUpdateMap_non_pointer_field Char.toLower false
      [exportedField "Field1" "field_one" "" (boolPtr (some true))] []
      (exportedField "Field4" "field_four" "true" (.nonPtr (boolValue true)))
      (boolValue true) rfl).2 _ _ (by decide) hk⟩

/-! ## The authorization check -/

/-- A call without admin permission that succeeds met no restricted field. -/
theorem fieldLoop_success_no_restricted (unicodeToLower : Char → Char)
    (fs : List StructField) :
    ∀ (m0 : UpdateMap) (mm : Option UpdateMap),
      fieldLoop unicodeToLower false fs m0 = .returned mm none →
      ∀ f ∈ fs, ¬ Restricted f := by
  induction fs with
  | nil => intro m0 mm _ f hf; simp at hf
  | cons g fs ih =>
    intro m0 mm h f hf
    rcases eligible_or_not g with ⟨val, hel⟩ | hne
    · have hb := loopBody_of_eligible unicodeToLower false g m0 val hel
      by_cases ha : g.adminOnlyTag ≠ [] ∧ false = false
      · rw [if_pos ha] at hb
        rw [fieldLoop_cons_stop _ _ _ _ _ _ hb] at h
        simp at h
      · rw [if_neg ha] at hb
        cases hc : columnName unicodeToLower (resolveName g) with
        | none =>
          rw [hc] at hb
          rw [fieldLoop_cons_stop _ _ _ _ _ _ hb] at h
          simp at h
        | some key =>
          rw [hc] at hb
          rw [fieldLoop_cons_next _ _ _ _ _ _ hb] at h
          rcases List.mem_cons.mp hf with rfl | hf
          · exact fun hr => ha ⟨hr.2, rfl⟩
          · exact ih _ _ h f hf
    · rw [fieldLoop_cons_next _ _ _ _ _ _ (loopBody_of_not_eligible _ _ _ _ hne)] at h
      rcases List.mem_cons.mp hf with rfl | hf
      · exact fun hr => hr.1.elim (fun w hw => hne w hw)
      · exact ih _ _ h f hf

/-- Whenever the call returns, the validation error is non-nil exactly when the call was
made without admin permission and some field is restricted. -/
theorem createUpdateMap_error_iff_of_returned (unicodeToLower : Char → Char)
    (req : List StructField) (isAdmin : Bool) (mm : Option UpdateMap) (e : Option GoString)
    (h : CreateUpdateMap unicodeToLower req isAdmin = .returned mm e) :
    e ≠ none ↔ (isAdmin = false ∧ ∃ f ∈ req, Restricted f) := by
  cases e with
  | some msg =>
    obtain ⟨_, h2, pre, f, post, hreq, _, hf, _⟩ :=
      fieldLoop_error unicodeToLower isAdmin req [] mm msg h
    simp only [ne_eq, reduceCtorEq, not_false_eq_true, true_iff]
    exact ⟨h2, f, by rw [hreq]; simp, hf⟩
  | none =>
    simp only [ne_eq, not_true_eq_false, false_iff, not_and, not_exists]
    intro ha f hf
    subst ha
    exact fieldLoop_success_no_restricted unicodeToLower req [] mm h f hf

/-- C5: the request with a present field tagged `a__b` followed by a present restricted
field, called without admin permission: a restricted field is there, yet the call does not
return a validation error, it panics on the first field. -/
theorem createUpdateMap_restricted_after_empty_segment :
    Restricted (exportedField "B" "b" "true" (boolPtr (some false))) ∧
      ∀ unicodeToLower, CreateUpdateMap unicodeToLower
        [exportedField "A" "a__b" "" (boolPtr (some false)),
         exportedField "B" "b" "true" (boolPtr (some false))] false = .panicked :=
  ⟨⟨⟨boolValue false, rfl, rfl, by decide⟩, by decide⟩, fun _ => rfl⟩

/-- C6, as stated, fails: a present restricted field tagged `limit_24` is rejected with a
message that names `limit_24`, not the transformed name `limit24`. -/
theorem adminOnlyMessage_not_transformed :
    CreateUpdateMap Char.toLower
        [exportedField "Limit24" "limit_24" "true" (.ptr (float64Value 0))] false
      = .returned none (some "Only admins can update field 'limit_24'.".toList) ∧
    columnName Char.toLower "limit_24".toList = some "limit24".toList ∧
    CreateUpdateMap Char.toLower
        [exportedField "Limit24" "limit_24" "true" (.ptr (float64Value 0))] false
      ≠ .returned none (some "Only admins can update field 'limit24'.".toList) := by
  decide

/-- C6, amended: when a call is rejected, the validation message is exactly
`Only admins can update field '<name>'.` where `<name>` is the name of a present
restricted field as resolved before the naming transformation: the json tag up to its
first comma, or the field name when the tag is empty, with underscores and case as
written. -/
theorem createUpdateMap_error_message (unicodeToLower : Char → Char)
    (req : List StructField) (isAdmin : Bool) (mm : Option UpdateMap) (msg : GoString)
    (h : CreateUpdateMap unicodeToLower req isAdmin = .returned mm (some msg)) :
    isAdmin = false ∧ ∃ f ∈ req, Restricted f ∧
      msg = "Only admins can update field '".toList ++ resolveName f ++ "'.".toList ∧
      resolveName f =
        firstCommaSegment (if f.jsonTag = [] then f.Name else f.jsonTag) := by
  obtain ⟨_, h2, pre, f, post, hreq, _, hf, hmsg⟩ :=
    fieldLoop_error unicodeToLower isAdmin req [] mm msg h
  exact ⟨h2, f, by rw [hreq]; simp, hf, hmsg, resolveName_eq f⟩

theorem createUpdateMap_error_message_witness :
    CreateUpdateMap Char.toLower
        (testStruct (some false) (some true) (some false) false none) false
      = .returned none (some "Only admins can update field 'field_three'.".toList) ∧
    (false = false ∧
      ∃ f ∈ testStruct (some false) (some true) (some false) false none, Restricted f ∧
        "Only admins can update field 'field_three'.".toList
          = "Only admins can update field '".toList ++ resolveName f ++ "'.".toList ∧
        resolveName f =
          firstCommaSegment (if f.jsonTag = [] then f.Name else f.jsonTag)) :=
  ⟨by decide, createUpdateMap_error_message Char.toLower _ false none _ (by decide)⟩

/-! ## Admin permission -/

theorem loopBody_admin_clearAdminOnly (unicodeToLower : Char → Char) (isAdmin : Bool)
    (f : StructField) (m : UpdateMap) :
    loopBody unicodeToLower true f m
      = loopBody unicodeToLower isAdmin (clearAdminOnly f) m := by
  rcases eligible_or_not f with ⟨val, hel⟩ | hne
  · have hel2 : Eligible (clearAdminOnly f) val := hel
    rw [loopBody_of_eligible _ _ _ _ val hel, loopBody_of_eligible _ _ _ _ val hel2]
    have h1 : ¬ (f.adminOnlyTag ≠ [] ∧ true = false) := fun h => Bool.noConfusion h.2
    have h2 : ¬ ((clearAdminOnly f).adminOnlyTag ≠ [] ∧ isAdmin = false) :=
      fun h => h.1 rfl
    rw [if_neg h1, if_neg h2]
    rfl
  · have hne2 : ∀ val, ¬ Eligible (clearAdminOnly f) val := hne
    rw [loopBody_of_not_eligible _ _ _ _ hne, loopBody_of_not_eligible _ _ _ _ hne2]

/-- With admin permission the call behaves as on the request with every `admin_only` tag
removed (called with either flag): same map, same panic. -/
theorem createUpdateMap_admin_clearAdminOnly (unicodeToLower : Char → Char) (isAdmin : Bool)
    (req : List StructField) :
    CreateUpdateMap unicodeToLower req true
      = CreateUpdateMap unicodeToLower (req.map clearAdminOnly) isAdmin := by
  unfold CreateUpdateMap
  generalize ([] : UpdateMap) = m
  induction req generalizing m with
  | nil => rfl
  | cons f fs ih =>
    rw [List.map_cons, fieldLoop, fieldLoop, loopBody_admin_clearAdminOnly _ isAdmin]
    cases loopBody unicodeToLower isAdmin (clearAdminOnly f) m with
    | next m1 => exact ih m1
    | stop r => rfl

/-- With admin permission the call never returns a validation error. -/
theorem createUpdateMap_admin_no_error (unicodeToLower : Char → Char)
    (req : List StructField) (mm : Option UpdateMap) (msg : GoString) :
    CreateUpdateMap unicodeToLower req true ≠ .returned mm (some msg) := by
  intro h
  have h2 := (fieldLoop_error unicodeToLower true req [] mm msg h).2.1
  exact Bool.noConfusion h2

/-- C7: the request with one present field tagged `a__b`, called with admin permission:
the call does not return a nil validation error and a map, it panics (as it does on the
request without `admin_only` tags). -/
theorem createUpdateMap_admin_empty_segment :
    ∀ unicodeToLower,
      CreateUpdateMap unicodeToLower
        [exportedField "A" "a__b" "true" (boolPtr (some false))] true = .panicked ∧
      CreateUpdateMap unicodeToLower
        ([exportedField "A" "a__b" "true" (boolPtr (some false))].map clearAdminOnly) true
        = .panicked :=
  fun _ => ⟨rfl, rfl⟩

/-! ## The json tag -/

theorem loopBody_congr_of_same_tag_segment (unicodeToLower : Char → Char) (isAdmin : Bool)
    (f : StructField) (tag2 : GoString) (m : UpdateMap)
    (h1 : f.jsonTag ≠ []) (h2 : f.jsonTag ≠ [ '-' ]) (h3 : tag2 ≠ []) (h4 : tag2 ≠ [ '-' ])
    (h5 : firstCommaSegment tag2 = firstCommaSegment f.jsonTag) :
    loopBody unicodeToLower isAdmin (withJSONTag f tag2) m
      = loopBody unicodeToLower isAdmin f m := by
  have hname : resolveName (withJSONTag f tag2) = resolveName f := by
    rw [resolveName_eq, resolveName_eq]
    have e1 : (withJSONTag f tag2).jsonTag = tag2 := rfl
    rw [e1, if_neg h3, if_neg h1, h5]
  rcases eligible_or_not f with ⟨val, hel⟩ | hne
  · have hel2 : Eligible (withJSONTag f tag2) val := ⟨hel.1, hel.2.1, h4⟩
    rw [loopBody_of_eligible _ _ _ _ val hel, loopBody_of_eligible _ _ _ _ val hel2, hname]
    rfl
  · have hne2 : ∀ val, ¬ Eligible (withJSONTag f tag2) val :=
      fun val hv => hne val ⟨hv.1, hv.2.1, h2⟩
    rw [loopBody_of_not_eligible _ _ _ _ hne, loopBody_of_not_eligible _ _ _ _ hne2]

/-- C8: for a field whose json tag is non-empty and not `-`, the name given to the naming
transformation is the part of the tag before its first comma; and what follows the first
comma has no effect: giving the field any other such tag with the same part before the
first comma leaves the outcome of the call (keys, values, inclusion, error) unchanged. -/
theorem createUpdateMap_json_tag_first_segment (unicodeToLower : Char → Char)
    (isAdmin : Bool) (pre post : List StructField) (f : StructField) (tag2 : GoString)
    (h1 : f.jsonTag ≠ []) (h2 : f.jsonTag ≠ [ '-' ]) (h3 : tag2 ≠ []) (h4 : tag2 ≠ [ '-' ])
    (h5 : firstCommaSegment tag2 = firstCommaSegment f.jsonTag) :
    resolveName f = firstCommaSegment f.jsonTag ∧
      CreateUpdateMap unicodeToLower (pre ++ withJSONTag f tag2 :: post) isAdmin
        = CreateUpdateMap unicodeToLower (pre ++ f :: post) isAdmin := by
  constructor
  · rw [resolveName_eq, if_neg h1]
  · unfold CreateUpdateMap
    apply fieldLoop_append_congr
    intro m
    rw [fieldLoop, fieldLoop,
      loopBody_congr_of_same_tag_segment unicodeToLower isAdmin f tag2 m h1 h2 h3 h4 h5]

theorem createUpdateMap_json_tag_first_segment_witness :
    (exportedField "Field5" "field_five,omitempty" "" (boolPtr (some true))).jsonTag ≠ [] ∧
    (exportedField "Field5" "field_five,omitempty" "" (boolPtr (some true))).jsonTag
      ≠ [ '-' ] ∧
    "field_five".toList ≠ [] ∧ "field_five".toList ≠ [ '-' ] ∧
    firstCommaSegment "field_five".toList
      = firstCommaSegment
          (exportedField "Field5" "field_five,omitempty" "" (boolPtr (some true))).jsonTag ∧
    (resolveName (exportedField "Field5" "field_five,omitempty" "" (boolPtr (some true)))
        = firstCommaSegment
          (exportedField "Field5" "field_five,omitempty" "" (boolPtr (some true))).jsonTag ∧
      CreateUpdateMap Char.toLower
          ([] ++ withJSONTag
            (exportedField "Field5" "field_five,omitempty" "" (boolPtr (some true)))
            "field_five".toList :: []) false
        = CreateUpdateMap Char.toLower
          ([] ++ exportedField "Field5" "field_five,omitempty" "" (boolPtr (some true)) :: [])
          false) ∧
    CreateUpdateMap Char.toLower
        [exportedField "Field5" "field_five,omitempty" "" (boolPtr (some true))] false
      = .returned (some [("field_five".toList, .bool true)]) none :=
  ⟨by decide, by decide, by decide, by decide, by decide,
    createUpdateMap_json_tag_first_segment Char.toLower false [] []
      (exportedField "Field5" "field_five,omitempty" "" (boolPtr (some true)))
      "field_five".toList (by decide) (by decide) (by decide) (by decide) (by decide),
    by decide⟩

/-! ## The naming transformation -/

theorem joinSegments_eq_joinSpec (segs : List GoString) :
    ∀ acc : GoString, (∀ seg ∈ segs.tail, seg ≠ []) →
      joinSegments segs acc = some (acc ++ joinSpec segs) := by
  induction segs with
  | nil => intro acc _; simp [joinSegments, joinSpec]
  | cons seg rest ih =>
    intro acc h
    cases rest with
    | nil => simp [joinSegments, joinSpec]
    | cons next rest2 =>
      have hnext : next ≠ [] := h next (by simp)
      have htail : ∀ x ∈ (next :: rest2).tail, x ≠ [] := by
        intro x hx
        exact h x (by simp only [List.tail_cons] at hx ⊢; exact List.mem_cons_of_mem _ hx)
      cases next with
      | nil => exact absurd rfl hnext
      | cons c cs =>
        rw [joinSegments, joinSpec]
        by_cases hd : c.isDigit = true
        · rw [if_pos hd, ih _ htail]
          simp [beginsWithDigit, hd]
        · rw [if_neg hd, ih _ htail]
          simp [beginsWithDigit, hd]

/-- C9: for a resolved name whose underscore-separated segments after the first are all
non-empty, the transformed name is the lower-casing of the segments concatenated in order,
an underscore being kept between a segment and the next exactly when the next does not
begin with a decimal digit; and the call on a present, exported field with that resolved
name that passes the authorization check returns the map with that key. -/
theorem columnName_eq_joinSpec (unicodeToLower : Char → Char) (name : GoString)
    (f : StructField) (val : Value) (isAdmin : Bool)
    (h : ∀ seg ∈ (Split name '_').tail, seg ≠ [])
    (hel : Eligible f val) (hname : resolveName f = name)
    (hadm : f.adminOnlyTag = [] ∨ isAdmin = true) :
    columnName unicodeToLower name
        = some (ToLower unicodeToLower (joinSpec (Split name '_'))) ∧
      CreateUpdateMap unicodeToLower [f] isAdmin
        = .returned
            (some (storeValue [] (ToLower unicodeToLower (joinSpec (Split name '_'))) val))
            none := by
  have hc : columnName unicodeToLower name
      = some (ToLower unicodeToLower (joinSpec (Split name '_'))) := by
    unfold columnName
    simp only [joinSegments_eq_joinSpec _ [] h, List.nil_append]
  refine ⟨hc, ?_⟩
  have hb := loopBody_of_eligible unicodeToLower isAdmin f [] val hel
  have hna : ¬ (f.adminOnlyTag ≠ [] ∧ isAdmin = false) := by
    rintro ⟨h1, h2⟩
    rcases hadm with h3 | h3
    · exact h1 h3
    · rw [h3] at h2
      exact Bool.noConfusion h2
  rw [if_neg hna, hname, hc] at hb
  unfold CreateUpdateMap
  rw [fieldLoop_cons_next _ _ _ _ _ _ hb, fieldLoop]

theorem columnName_eq_joinSpec_witness :
    (∀ seg ∈ (Split "a_1_b".toList '_').tail, seg ≠ []) ∧
    Eligible (exportedField "A1B" "a_1_b,omitempty" "" (boolPtr (some true)))
      (boolValue true) ∧
    resolveName (exportedField "A1B" "a_1_b,omitempty" "" (boolPtr (some true)))
      = "a_1_b".toList ∧
    ((exportedField "A1B" "a_1_b,omitempty" "" (boolPtr (some true))).adminOnlyTag = [] ∨
      false = true) ∧
    (columnName Char.toLower "a_1_b".toList
        = some (ToLower Char.toLower (joinSpec (Split "a_1_b".toList '_'))) ∧
      CreateUpdateMap Char.toLower
          [exportedField "A1B" "a_1_b,omitempty" "" (boolPtr (some true))] false
        = .returned
            (some (storeValue []
              (ToLower Char.toLower (joinSpec (Split "a_1_b".toList '_'))) (boolValue true)))
            none) ∧
    ToLower Char.toLower (joinSpec (Split "a_1_b".toList '_')) = "a1_b".toList ∧
    ToLower Char.toLower (joinSpec (Split "limit_24".toList '_')) = "limit24".toList ∧
    ToLower Char.toLower (joinSpec (Split "field_one".toList '_')) = "field_one".toList :=
  ⟨by decide, by decide, by decide, Or.inl rfl,
    columnName_eq_joinSpec Char.toLower "a_1_b".toList
      (exportedField "A1B" "a_1_b,omitempty" "" (boolPtr (some true))) (boolValue true) false
      (by decide) (by decide) (by decide) (Or.inl rfl),
    by decide, by decide, by decide⟩

/-- The three names of the specification, for every `unicode.ToLower`. -/
theorem columnName_examples (unicodeToLower : Char → Char) :
    columnName unicodeToLower "limit_24".toList = some "limit24".toList ∧
    columnName unicodeToLower "field_one".toList = some "field_one".toList ∧
    columnName unicodeToLower "a_1_b".toList = some "a1_b".toList ∧
    columnName unicodeToLower "Field1".toList = some "field1".toList :=
  ⟨rfl, rfl, rfl, rfl⟩

/-- C10: the request with one present field whose json tag is `a__b`, `a_` or `_`: the
next segment is empty, reading its byte 0 panics, and the call does not return, with
either value of `isAdmin`. -/
theorem createUpdateMap_empty_segment_panics :
    ∀ (unicodeToLower : Char → Char) (isAdmin : Bool),
      CreateUpdateMap unicodeToLower
        [exportedField "A" "a__b" "" (boolPtr (some false))] isAdmin = .panicked ∧
      CreateUpdateMap unicodeToLower
        [exportedField "A" "a_" "" (boolPtr (some false))] isAdmin = .panicked ∧
      CreateUpdateMap unicodeToLower
        [exportedField "A" "_" "" (boolPtr (some false))] isAdmin = .panicked := by
  intro unicodeToLower isAdmin
  cases isAdmin <;> exact ⟨rfl, rfl, rfl⟩

/-! ## Fields tagged `-` -/

/-- C11: a field whose json tag is exactly `-` contributes nothing, whatever its value:
the call yields what it yields on the request without that field, so it adds no key and,
the exclusion coming before the authorization check, causes no validation error even when
it is present, carries `admin_only` and `isAdmin` is false; and on success a key that no
other field contributes is not in the map. -/
theorem createUpdateMap_excluded_field (unicodeToLower : Char → Char) (isAdmin : Bool)
    (pre post : List StructField) (f : StructField) (htag : f.jsonTag = [ '-' ]) :
    CreateUpdateMap unicodeToLower (pre ++ f :: post) isAdmin
        = CreateUpdateMap unicodeToLower (pre ++ post) isAdmin ∧
      ∀ m k,
        CreateUpdateMap unicodeToLower (pre ++ f :: post) isAdmin = .returned (some m) none →
        (∀ g ∈ pre ++ post, ¬ Contributes unicodeToLower g k) → ¬ HasKey m k := by
  have hne : ∀ val, ¬ Eligible f val := fun val hel => hel.2.2 htag
  exact ⟨createUpdateMap_skip _ _ _ _ _ hne,
    fun m k hs hk => createUpdateMap_skip_no_key _ _ _ _ _ hne m k hs hk⟩

theorem createUpdateMap_excluded_field_witness :
    (exportedField "Secret" "-" "true" (boolPtr (some true))).jsonTag = [ '-' ] ∧
    CreateUpdateMap Char.toLower
        ([exportedField "Field2" "field_two" "" (boolPtr (some false))] ++
          exportedField "Secret" "-" "true" (boolPtr (some true)) :: []) false
      = CreateUpdateMap Char.toLower
        ([exportedField "Field2" "field_two" "" (boolPtr (some false))] ++ []) false ∧
    CreateUpdateMap Char.toLower
        ([exportedField "Field2" "field_two" "" (boolPtr (some false))] ++
          exportedField "Secret" "-" "true" (boolPtr (some true)) :: []) false
      = .returned (some [("field_two".toList, .bool false)]) none ∧
    (∀ g ∈ [exportedField "Field2" "field_two" "" (boolPtr (some false))] ++ [],
      ¬ Contributes Char.toLower g "-".toList) ∧
    ¬ HasKey [("field_two".toList, Iface.bool false)] "-".toList :=
  have hk : ∀ g ∈ [exportedField "Field2" "field_two" "" (boolPtr (some false))] ++ [],
      ¬ Contributes Char.toLower g "-".toList := by
    intro g hg
    rintro ⟨val, _, _, hc⟩
    simp only [List.append_nil, List.mem_singleton] at hg
    subst hg
    revert hc
    decide
  ⟨rfl, (createUpdateMap_excluded_field Char.toLower false _ _ _ rfl).1, by decide, hk,
    (createUpdateMap_excluded_field Char.toLower false
      [exportedField "Field2" "field_two" "" (boolPtr (some false))] []
      (exportedField "Secret" "-" "true" (boolPtr (some true))) rfl).2 _ _ (by decide) hk⟩

/-! ## Rejection -/

/-- C15: when a call is rejected, the request splits into the fields before the first
restricted field (present, exported, not tagged `-`, with `admin_only`), that field, and
the fields after it; the message is built from that field, and the fields after it are
not looked at: with any other fields in their place the call returns the same. -/
theorem createUpdateMap_rejects_at_first_restricted (unicodeToLower : Char → Char)
    (req : List StructField) (isAdmin : Bool) (mm : Option UpdateMap) (msg : GoString)
    (h : CreateUpdateMap unicodeToLower req isAdmin = .returned mm (some msg)) :
    ∃ pre f post, req = pre ++ f :: post ∧ (∀ g ∈ pre, ¬ Restricted g) ∧ Restricted f ∧
      msg = adminOnlyMessage (resolveName f) ∧
      ∀ post2, CreateUpdateMap unicodeToLower (pre ++ f :: post2) isAdmin
        = .returned mm (some msg) := by
  obtain ⟨_, h2, pre, f, post, hreq, hpre, hf, hmsg⟩ :=
    fieldLoop_error unicodeToLower isAdmin req [] mm msg h
  refine ⟨pre, f, post, hreq, hpre, hf, hmsg, fun post2 => ?_⟩
  rw [← h, hreq]
  unfold CreateUpdateMap
  apply fieldLoop_append_congr
  intro m
  obtain ⟨⟨val, hel⟩, hadm⟩ := hf
  have hb := loopBody_of_eligible unicodeToLower isAdmin f m val hel
  rw [if_pos ⟨hadm, h2⟩] at hb
  rw [fieldLoop_cons_stop _ _ _ _ _ _ hb, fieldLoop_cons_stop _ _ _ _ _ _ hb]

theorem createUpdateMap_rejects_at_first_restricted_witness :
    CreateUpdateMap Char.toLower
        [exportedField "A" "first" "true" (boolPtr (some true)),
         exportedField "B" "second" "true" (boolPtr (some true))] false
      = .returned none (some "Only admins can update field 'first'.".toList) ∧
    ∃ pre f post,
      [exportedField "A" "first" "true" (boolPtr (some true)),
       exportedField "B" "second" "true" (boolPtr (some true))] = pre ++ f :: post ∧
      (∀ g ∈ pre, ¬ Restricted g) ∧ Restricted f ∧
      "Only admins can update field 'first'.".toList = adminOnlyMessage (resolveName f) ∧
      ∀ post2, CreateUpdateMap Char.toLower (pre ++ f :: post2) false
        = .returned none (some "Only admins can update field 'first'.".toList) :=
  ⟨by decide, createUpdateMap_rejects_at_first_restricted Char.toLower _ false none _
    (by decide)⟩

/-- C16: whenever the call returns a validation error, the returned map is nil, however
many fields were stored before the restricted one. -/
theorem createUpdateMap_error_nil_map (unicodeToLower : Char → Char)
    (req : List StructField) (isAdmin : Bool) (mm : Option UpdateMap) (msg : GoString)
    (h : CreateUpdateMap unicodeToLower req isAdmin = .returned mm (some msg)) :
    mm = none :=
  (fieldLoop_error unicodeToLower isAdmin req [] mm msg h).1

theorem createUpdateMap_error_nil_map_witness :
    CreateUpdateMap Char.toLower
        (testStruct (some false) (some true) (some false) false none) false
      = .returned none (some "Only admins can update field 'field_three'.".toList) ∧
    (none : Option UpdateMap) = none :=
  ⟨by decide,
    createUpdateMap_error_nil_map Char.toLower
      (testStruct (some false) (some true) (some false) false none) false none
      "Only admins can update field 'field_three'.".toList (by decide)⟩

/-- A loop that succeeds without admin permission does the same with it. -/
theorem fieldLoop_success_with_admin (unicodeToLower : Char → Char)
    (fs : List StructField) :
    ∀ (m0 : UpdateMap) (mm : Option UpdateMap),
      fieldLoop unicodeToLower false fs m0 = .returned mm none →
      fieldLoop unicodeToLower true fs m0 = .returned mm none := by
  induction fs with
  | nil => intro m0 mm h; exact h
  | cons g fs ih =>
    intro m0 mm h
    rcases eligible_or_not g with ⟨val, hel⟩ | hne
    · have hb := loopBody_of_eligible unicodeToLower false g m0 val hel
      have hbt := loopBody_of_eligible unicodeToLower true g m0 val hel
      have hnt : ¬ (g.adminOnlyTag ≠ [] ∧ true = false) := fun hx => Bool.noConfusion hx.2
      rw [if_neg hnt] at hbt
      by_cases ha : g.adminOnlyTag ≠ [] ∧ false = false
      · rw [if_pos ha] at hb
        rw [fieldLoop_cons_stop _ _ _ _ _ _ hb] at h
        simp at h
      · rw [if_neg ha] at hb
        cases hc : columnName unicodeToLower (resolveName g) with
        | none =>
          rw [hc] at hb
          rw [fieldLoop_cons_stop _ _ _ _ _ _ hb] at h
          simp at h
        | some key =>
          rw [hc] at hb hbt
          rw [fieldLoop_cons_next _ _ _ _ _ _ hb] at h
          rw [fieldLoop_cons_next _ _ _ _ _ _ hbt]
          exact ih _ _ h
    · rw [fieldLoop_cons_next _ _ _ _ _ _ (loopBody_of_not_eligible _ _ _ _ hne)] at h
      rw [fieldLoop_cons_next _ _ _ _ _ _ (loopBody_of_not_eligible _ _ _ _ hne)]
      exact ih _ _ h

/-- C17: if the call without admin permission returns no validation error, the call with
admin permission returns no validation error and the same map. -/
theorem createUpdateMap_success_with_admin (unicodeToLower : Char → Char)
    (req : List StructField) (mm : Option UpdateMap)
    (h : CreateUpdateMap unicodeToLower req false = .returned mm none) :
    CreateUpdateMap unicodeToLower req true = .returned mm none :=
  fieldLoop_success_with_admin unicodeToLower req [] mm h

theorem createUpdateMap_success_with_admin_witness :
    CreateUpdateMap Char.toLower (testStruct (some false) (some true) none true none) false
      = .returned
          (some [("field_two".toList, .bool true), ("field_one".toList, .bool false)]) none ∧
    CreateUpdateMap Char.toLower (testStruct (some false) (some true) none true none) true
      = .returned
          (some [("field_two".toList, .bool true), ("field_one".toList, .bool false)]) none :=
  ⟨by decide,
    createUpdateMap_success_with_admin Char.toLower
      (testStruct (some false) (some true) none true none) _ (by decide)⟩

/-! ## Composition of the loop -/

theorem loopBody_stop_cases (unicodeToLower : Char → Char) (isAdmin : Bool)
    (f : StructField) (m : UpdateMap) (r : Outcome)
    (h : loopBody unicodeToLower isAdmin f m = .stop r) :
    r = .panicked ∨ ∃ msg, r = .returned none (some msg) := by
  rcases eligible_or_not f with ⟨val, hel⟩ | hne
  · rw [loopBody_of_eligible unicodeToLower isAdmin f m val hel] at h
    split at h
    · exact Or.inr ⟨_, (Step.stop.inj h).symm⟩
    · split at h
      · exact Or.inl (Step.stop.inj h).symm
      · exact Step.noConfusion h
  · rw [loopBody_of_not_eligible _ _ _ _ hne] at h
    exact Step.noConfusion h

theorem fieldLoop_cons_success (unicodeToLower : Char → Char) (isAdmin : Bool)
    (f : StructField) (rest : List StructField) (m0 m : UpdateMap)
    (h : fieldLoop unicodeToLower isAdmin (f :: rest) m0 = .returned (some m) none) :
    ∃ m1, loopBody unicodeToLower isAdmin f m0 = .next m1 ∧
      fieldLoop unicodeToLower isAdmin rest m1 = .returned (some m) none := by
  rw [fieldLoop] at h
  cases hb : loopBody unicodeToLower isAdmin f m0 with
  | next m1 =>
    rw [hb] at h
    exact ⟨m1, rfl, h⟩
  | stop r =>
    rw [hb] at h
    simp only at h
    rcases loopBody_stop_cases _ _ _ _ _ hb with hr | ⟨msg, hr⟩
    · rw [hr] at h
      exact Outcome.noConfusion h
    · rw [hr] at h
      simp at h

theorem fieldLoop_append_split (unicodeToLower : Char → Char) (isAdmin : Bool)
    (pre rest : List StructField) :
    ∀ (m0 m : UpdateMap),
      fieldLoop unicodeToLower isAdmin (pre ++ rest) m0 = .returned (some m) none →
      ∃ m1, fieldLoop unicodeToLower isAdmin pre m0 = .returned (some m1) none ∧
        fieldLoop unicodeToLower isAdmin rest m1 = .returned (some m) none := by
  induction pre with
  | nil => intro m0 m h; exact ⟨m0, rfl, h⟩
  | cons a pre ih =>
    intro m0 m h
    obtain ⟨m1, hb, h1⟩ := fieldLoop_cons_success _ _ _ _ _ _ h
    obtain ⟨m2, h2, h3⟩ := ih _ _ h1
    exact ⟨m2, by rw [fieldLoop_cons_next _ _ _ _ _ _ hb]; exact h2, h3⟩

theorem fieldLoop_append_of_success (unicodeToLower : Char → Char) (isAdmin : Bool)
    (pre rest : List StructField) :
    ∀ (m0 m1 : UpdateMap),
      fieldLoop unicodeToLower isAdmin pre m0 = .returned (some m1) none →
      fieldLoop unicodeToLower isAdmin (pre ++ rest) m0
        = fieldLoop unicodeToLower isAdmin rest m1 := by
  induction pre with
  | nil =>
    intro m0 m1 h
    simp only [fieldLoop, Outcome.returned.injEq, Option.some.injEq, and_true] at h
    subst h
    rfl
  | cons a pre ih =>
    intro m0 m1 h
    obtain ⟨m2, hb, h1⟩ := fieldLoop_cons_success _ _ _ _ _ _ h
    rw [List.cons_append, fieldLoop_cons_next _ _ _ _ _ _ hb]
    exact ih _ _ h1

/-! ## The stored values -/

theorem storeValue_eq_readValue (m : UpdateMap) (key : GoString) (val : Value) :
    storeValue m key val =
      match readValue val with
      | some v => mapSet m key v
      | none => m := by
  unfold storeValue readValue signedIntKinds unsignedIntKinds floatKinds
  cases hk : val.kind <;> simp
  split
  · next ht => cases ha : val.asTime <;> simp [ht]
  · next ht => simp [ht]

theorem readValue_isSome_iff (val : Value) :
    (∃ v, readValue val = some v) ↔ SupportedValue val := by
  unfold readValue SupportedValue IsTimeValue signedIntKinds unsignedIntKinds floatKinds
  cases hk : val.kind <;> simp
  intro _
  cases ha : val.asTime <;> simp

theorem mapGet_storeValue_of_ne (m : UpdateMap) (key k : GoString) (val : Value)
    (h : SupportedValue val → key ≠ k) :
    mapGet (storeValue m key val) k = mapGet m k := by
  rw [storeValue_eq_readValue]
  cases hr : readValue val with
  | none => rfl
  | some v =>
    have hne : key ≠ k := h ((readValue_isSome_iff val).mp ⟨v, hr⟩)
    simp only [mapGet_mapSet, if_neg hne]

theorem mapGet_storeValue_self (m : UpdateMap) (k : GoString) (val : Value) (v : Iface)
    (h : readValue val = some v) : mapGet (storeValue m k val) k = some v := by
  rw [storeValue_eq_readValue, h]
  simp only [mapGet_mapSet, if_true]

/-- What the eligible field at the head of a successful loop does. -/
theorem loopBody_of_success (unicodeToLower : Char → Char) (isAdmin : Bool)
    (f : StructField) (val : Value) (m0 m1 : UpdateMap) (hel : Eligible f val)
    (hb : loopBody unicodeToLower isAdmin f m0 = .next m1) :
    (f.adminOnlyTag = [] ∨ isAdmin = true) ∧
      ∃ key, columnName unicodeToLower (resolveName f) = some key ∧
        m1 = storeValue m0 key val := by
  rw [loopBody_of_eligible unicodeToLower isAdmin f m0 val hel] at hb
  by_cases ha : f.adminOnlyTag ≠ [] ∧ isAdmin = false
  · rw [if_pos ha] at hb
    exact Step.noConfusion hb
  · rw [if_neg ha] at hb
    constructor
    · by_cases ht : f.adminOnlyTag = []
      · exact Or.inl ht
      · cases isAdmin with
        | true => exact Or.inr rfl
        | false => exact absurd ⟨ht, rfl⟩ ha
    · cases hc : columnName unicodeToLower (resolveName f) with
      | none =>
        rw [hc] at hb
        exact Step.noConfusion hb
      | some key =>
        rw [hc] at hb
        exact ⟨key, rfl, (Step.next.inj hb).symm⟩

/-- A key that no field contributes keeps the entry it had before the loop. -/
theorem fieldLoop_get_of_no_contributor (unicodeToLower : Char → Char) (isAdmin : Bool)
    (fs : List StructField) (k : GoString) :
    ∀ (m0 m : UpdateMap),
      fieldLoop unicodeToLower isAdmin fs m0 = .returned (some m) none →
      (∀ g ∈ fs, ¬ Contributes unicodeToLower g k) → mapGet m k = mapGet m0 k := by
  induction fs with
  | nil =>
    intro m0 m h _
    simp only [fieldLoop, Outcome.returned.injEq, Option.some.injEq, and_true] at h
    rw [h]
  | cons f fs ih =>
    intro m0 m h hno
    obtain ⟨m1, hb, h1⟩ := fieldLoop_cons_success _ _ _ _ _ _ h
    rw [ih _ _ h1 (fun g hg => hno g (List.mem_cons_of_mem _ hg))]
    rcases eligible_or_not f with ⟨val, hel⟩ | hne
    · obtain ⟨_, key, hc, hm1⟩ := loopBody_of_success _ _ _ _ _ _ hel hb
      rw [hm1]
      apply mapGet_storeValue_of_ne
      intro hs hkey
      exact hno f (List.mem_cons_self _ _) ⟨val, hel, hs, hkey ▸ hc⟩
    · rw [loopBody_of_not_eligible _ _ _ _ hne] at hb
      rw [← Step.next.inj hb]

/-- The entry of a key is the value of the last field that contributes it. -/
theorem fieldLoop_get_last (unicodeToLower : Char → Char) (isAdmin : Bool)
    (pre post : List StructField) (f : StructField) (val : Value) (k : GoString) (v : Iface)
    (m0 m : UpdateMap)
    (h : fieldLoop unicodeToLower isAdmin (pre ++ f :: post) m0 = .returned (some m) none)
    (hel : Eligible f val) (hk : columnName unicodeToLower (resolveName f) = some k)
    (hv : readValue val = some v) (hlast : ∀ g ∈ post, ¬ Contributes unicodeToLower g k) :
    mapGet m k = some v := by
  obtain ⟨m1, _, h1⟩ := fieldLoop_append_split _ _ _ _ _ _ h
  obtain ⟨m2, hb, h2⟩ := fieldLoop_cons_success _ _ _ _ _ _ h1
  obtain ⟨_, key, hc, hm2⟩ := loopBody_of_success _ _ _ _ _ _ hel hb
  rw [hk] at hc
  have hkey : k = key := Option.some.inj hc
  subst hkey
  rw [fieldLoop_get_of_no_contributor _ _ _ _ _ _ h2 hlast, hm2]
  exact mapGet_storeValue_self _ _ _ _ hv

/-- A present field of an unsupported kind in a successful call can be left out. -/
theorem fieldLoop_drop_unsupported (unicodeToLower : Char → Char) (isAdmin : Bool)
    (pre post : List StructField) (f : StructField) (val : Value) (m0 m : UpdateMap)
    (h : fieldLoop unicodeToLower isAdmin (pre ++ f :: post) m0 = .returned (some m) none)
    (hel : Eligible f val) (hv : readValue val = none) :
    fieldLoop unicodeToLower isAdmin (pre ++ post) m0 = .returned (some m) none := by
  obtain ⟨m1, hpre, h1⟩ := fieldLoop_append_split _ _ _ _ _ _ h
  obtain ⟨m2, hb, h2⟩ := fieldLoop_cons_success _ _ _ _ _ _ h1
  obtain ⟨_, key, _, hm2⟩ := loopBody_of_success _ _ _ _ _ _ hel hb
  rw [storeValue_eq_readValue, hv] at hm2
  have hm : m2 = m1 := hm2
  rw [fieldLoop_append_of_success _ _ _ _ _ _ hpre, ← hm]
  exact h2

theorem firstCommaSegment_of_no_comma (s : GoString) (h : ',' ∉ s) :
    firstCommaSegment s = s := by
  unfold firstCommaSegment
  induction s with
  | nil => rfl
  | cons c cs ih =>
    have hc : c ≠ ',' := fun hx => h (hx ▸ List.mem_cons_self _ _)
    have hcs : ',' ∉ cs := fun hx => h (List.mem_cons_of_mem _ hx)
    rw [List.takeWhile_cons, if_pos (by simpa using hc), ih hcs]

/-- Among the fields with a property there is a last one. -/
theorem exists_last_field (P : StructField → Prop) (fs : List StructField)
    (h : ∃ f ∈ fs, P f) :
    ∃ pre f post, fs = pre ++ f :: post ∧ P f ∧ ∀ g ∈ post, ¬ P g := by
  induction fs with
  | nil =>
    obtain ⟨f, hf, _⟩ := h
    simp at hf
  | cons a fs ih =>
    by_cases hfs : ∃ f ∈ fs, P f
    · obtain ⟨pre, f, post, hsplit, hP, hpost⟩ := ih hfs
      exact ⟨a :: pre, f, post, by rw [hsplit]; rfl, hP, hpost⟩
    · obtain ⟨f, hf, hP⟩ := h
      rcases List.mem_cons.mp hf with rfl | hf
      · exact ⟨[], f, fs, rfl, hP, fun g hg hPg => hfs ⟨g, hg, hPg⟩⟩
      · exact absurd ⟨f, hf, hP⟩ hfs

/-- C12: an eligible field of a supported kind without json tag (or with an empty one)
has its declared identifier as resolved name (an identifier holds no comma), and on a
successful call it is stored under the identifier digit-collapsed and lower-cased. -/
theorem createUpdateMap_untagged_field (unicodeToLower : Char → Char)
    (req : List StructField) (isAdmin : Bool) (m : UpdateMap) (f : StructField) (val : Value)
    (h : CreateUpdateMap unicodeToLower req isAdmin = .returned (some m) none)
    (hf : f ∈ req) (hel : Eligible f val) (htag : f.jsonTag = []) (hid : ',' ∉ f.Name)
    (hs : SupportedValue val) :
    resolveName f = f.Name ∧
      ∃ k, columnName unicodeToLower f.Name = some k ∧ HasKey m k := by
  have hname : resolveName f = f.Name := by
    rw [resolveName_eq, if_pos htag, firstCommaSegment_of_no_comma _ hid]
  refine ⟨hname, ?_⟩
  obtain ⟨k, hk⟩ := fieldLoop_success_columnName unicodeToLower isAdmin req [] m h f hf val hel
  refine ⟨k, hname ▸ hk, ?_⟩
  rw [fieldLoop_keys unicodeToLower isAdmin req [] m h k]
  exact Or.inr ⟨f, hf, val, hel, hs, hk⟩

theorem createUpdateMap_untagged_field_witness :
    CreateUpdateMap Char.toLower [exportedField "Field1" "" "" (boolPtr (some true))] false
      = .returned (some [("field1".toList, .bool true)]) none ∧
    (resolveName (exportedField "Field1" "" "" (boolPtr (some true)))
        = (exportedField "Field1" "" "" (boolPtr (some true))).Name ∧
      ∃ k, columnName Char.toLower (exportedField "Field1" "" "" (boolPtr (some true))).Name
          = some k ∧ HasKey [("field1".toList, Iface.bool true)] k) ∧
    columnName Char.toLower (exportedField "Field1" "" "" (boolPtr (some true))).Name
      = some "field1".toList :=
  ⟨by decide,
    createUpdateMap_untagged_field Char.toLower
      [exportedField "Field1" "" "" (boolPtr (some true))] false _
      (exportedField "Field1" "" "" (boolPtr (some true))) (boolValue true)
      (by decide) (by decide) (by decide) rfl (by decide) (by decide),
    by decide⟩

/-- C13: on a successful call, for an eligible field with key `k`: if its pointed-to
value has a supported kind and no later field contributes `k`, the entry of `k` is that
value read by its declared kind (int64, uint64, float64, string, bool, `time.Time`); if
it has any other kind, the field adds no entry and causes no error: the call on the
request without it returns the same map. -/
theorem createUpdateMap_stored_value (unicodeToLower : Char → Char) (isAdmin : Bool)
    (pre post : List StructField) (f : StructField) (val : Value) (m : UpdateMap)
    (k : GoString)
    (h : CreateUpdateMap unicodeToLower (pre ++ f :: post) isAdmin = .returned (some m) none)
    (hel : Eligible f val) (hk : columnName unicodeToLower (resolveName f) = some k) :
    (∀ v, readValue val = some v → (∀ g ∈ post, ¬ Contributes unicodeToLower g k) →
        mapGet m k = some v) ∧
      (readValue val = none →
        CreateUpdateMap unicodeToLower (pre ++ post) isAdmin = .returned (some m) none) :=
  ⟨fun v hv hlast =>
      fieldLoop_get_last unicodeToLower isAdmin pre post f val k v [] m h hel hk hv hlast,
    fun hv => fieldLoop_drop_unsupported unicodeToLower isAdmin pre post f val [] m h hel hv⟩

theorem createUpdateMap_stored_value_witness :
    CreateUpdateMap Char.toLower
        ([] ++ exportedField "Field1" "field_one" "" (boolPtr (some false)) ::
          [exportedField "Tags" "tags" "" (.ptr sliceValue)]) false
      = .returned (some [("field_one".toList, .bool false)]) none ∧
    Eligible (exportedField "Field1" "field_one" "" (boolPtr (some false))) (boolValue false) ∧
    columnName Char.toLower
        (resolveName (exportedField "Field1" "field_one" "" (boolPtr (some false))))
      = some "field_one".toList ∧
    readValue (boolValue false) = some (.bool false) ∧
    mapGet [("field_one".toList, Iface.bool false)] "field_one".toList = some (.bool false) ∧
    Eligible (exportedField "Tags" "tags" "" (.ptr sliceValue)) sliceValue ∧
    readValue sliceValue = none ∧
    CreateUpdateMap Char.toLower
        ([exportedField "Field1" "field_one" "" (boolPtr (some false))] ++ []) false
      = .returned (some [("field_one".toList, .bool false)]) none :=
  ⟨by decide, by decide, by decide, by decide,
    (createUpdateMap_stored_value Char.toLower false []
      [exportedField "Tags" "tags" "" (.ptr sliceValue)]
      (exportedField "Field1" "field_one" "" (boolPtr (some false))) (boolValue false)
      [("field_one".toList, .bool false)] "field_one".toList
      (by decide) (by decide) (by decide)).1 (.bool false) (by decide)
      (by
        intro g hg
        rintro ⟨val, _, _, hc⟩
        simp only [List.mem_singleton] at hg
        subst hg
        revert hc
        decide),
    by decide, by decide,
    (createUpdateMap_stored_value Char.toLower false
      [exportedField "Field1" "field_one" "" (boolPtr (some false))] []
      (exportedField "Tags" "tags" "" (.ptr sliceValue)) sliceValue
      [("field_one".toList, .bool false)] "tags".toList
      (by decide) (by decide) (by decide)).2 (by decide)⟩

/-! ## Fields with the same key -/

/-- C14, as stated, fails: two distinct present fields tagged `limit_24` and `limit24`
both contribute the key `limit24`; the call succeeds and the map holds the value of the
second. -/
theorem createUpdateMap_two_fields_one_key :
    CreateUpdateMap Char.toLower
        [exportedField "Limit" "limit_24" "" (.ptr (float64Value 1)),
         exportedField "Limit24" "limit24" "" (.ptr (float64Value 2))] false
      = .returned (some [("limit24".toList, .float64 2)]) none ∧
    exportedField "Limit" "limit_24" "" (.ptr (float64Value 1))
      ≠ exportedField "Limit24" "limit24" "" (.ptr (float64Value 2)) ∧
    Contributes Char.toLower (exportedField "Limit" "limit_24" "" (.ptr (float64Value 1)))
      "limit24".toList ∧
    Contributes Char.toLower (exportedField "Limit24" "limit24" "" (.ptr (float64Value 2)))
      "limit24".toList :=
  ⟨by decide, by decide,
    ⟨float64Value 1, by decide, by decide, by decide⟩,
    ⟨float64Value 2, by decide, by decide, by decide⟩⟩

/-- C14, amended: on a successful call every key of the map comes from at least one
present, exported field not tagged `-`, of a supported kind, that is unrestricted or
admin-approved; several fields may contribute the same key, and the entry is the value of
the last of them in declaration order. -/
theorem createUpdateMap_key_of_last_contributor (unicodeToLower : Char → Char)
    (req : List StructField) (isAdmin : Bool) (m : UpdateMap) (k : GoString)
    (h : CreateUpdateMap unicodeToLower req isAdmin = .returned (some m) none)
    (hk : HasKey m k) :
    ∃ pre f post val, req = pre ++ f :: post ∧ Eligible f val ∧ SupportedValue val ∧
      columnName unicodeToLower (resolveName f) = some k ∧
      (f.adminOnlyTag = [] ∨ isAdmin = true) ∧
      (∀ g ∈ post, ¬ Contributes unicodeToLower g k) ∧
      mapGet m k = readValue val := by
  have hc : ∃ f ∈ req, Contributes unicodeToLower f k := by
    rcases (fieldLoop_keys unicodeToLower isAdmin req [] m h k).mp hk with h0 | hc
    · exact absurd rfl h0
    · exact hc
  obtain ⟨pre, f, post, hsplit, ⟨val, hel, hs, hcol⟩, hlast⟩ :=
    exists_last_field (fun f => Contributes unicodeToLower f k) req hc
  subst hsplit
  obtain ⟨v, hv⟩ := (readValue_isSome_iff val).mpr hs
  obtain ⟨m1, _, h1⟩ := fieldLoop_append_split _ _ _ _ _ _ h
  obtain ⟨m2, hb, _⟩ := fieldLoop_cons_success _ _ _ _ _ _ h1
  obtain ⟨hadm, _⟩ := loopBody_of_success _ _ _ _ _ _ hel hb
  refine ⟨pre, f, post, val, rfl, hel, hs, hcol, hadm, hlast, ?_⟩
  rw [hv]
  exact fieldLoop_get_last unicodeToLower isAdmin pre post f val k v [] m h hel hcol hv hlast

theorem createUpdateMap_key_of_last_contributor_witness :
    CreateUpdateMap Char.toLower
        [exportedField "Limit" "limit_24" "" (.ptr (float64Value 1)),
         exportedField "Limit24" "limit24" "" (.ptr (float64Value 2))] false
      = .returned (some [("limit24".toList, .float64 2)]) none ∧
    HasKey [("limit24".toList, Iface.float64 2)] "limit24".toList ∧
    ∃ pre f post val,
      [exportedField "Limit" "limit_24" "" (.ptr (float64Value 1)),
        exportedField "Limit24" "limit24" "" (.ptr (float64Value 2))] = pre ++ f :: post ∧
      Eligible f val ∧ SupportedValue val ∧
      columnName Char.toLower (resolveName f) = some "limit24".toList ∧
      (f.adminOnlyTag = [] ∨ false = true) ∧
      (∀ g ∈ post, ¬ Contributes Char.toLower g "limit24".toList) ∧
      mapGet [("limit24".toList, Iface.float64 2)] "limit24".toList = readValue val :=
  ⟨by decide, by decide,
    createUpdateMap_key_of_last_contributor Char.toLower _ false _ _ (by decide) (by decide)⟩

/-! ## Lower-casing of ASCII -/

theorem toNat_ofNat_add_32 (n : Nat) (h1 : 65 ≤ n) (h2 : n ≤ 90) :
    (Char.ofNat (n + 32)).toNat = n + 32 := by
  interval_cases n <;> rfl

theorem toLower_of_upper (c : Char) (h : 65 ≤ c.toNat ∧ c.toNat ≤ 90) :
    Char.toLower c = Char.ofNat (c.toNat + 32) := by
  unfold Char.toLower
  simp only [ge_iff_le]
  rw [if_pos h]

theorem toLower_of_not_upper (c : Char) (h : ¬ (65 ≤ c.toNat ∧ c.toNat ≤ 90)) :
    Char.toLower c = c := by
  unfold Char.toLower
  simp only [ge_iff_le]
  rw [if_neg h]

theorem toLower_toNat_of_upper (c : Char) (h : 65 ≤ c.toNat ∧ c.toNat ≤ 90) :
    (Char.toLower c).toNat = c.toNat + 32 := by
  rw [toLower_of_upper c h, toNat_ofNat_add_32 _ h.1 h.2]

theorem toLower_eq_underscore (c : Char) (h : Char.toLower c = '_') : c = '_' := by
  by_cases hu : 65 ≤ c.toNat ∧ c.toNat ≤ 90
  · have h1 := toLower_toNat_of_upper c hu
    rw [h] at h1
    have h2 : ('_' : Char).toNat = 95 := rfl
    omega
  · rwa [toLower_of_not_upper c hu] at h

theorem toLower_isDigit (c : Char) (h : (Char.toLower c).isDigit = true) :
    c.isDigit = true := by
  by_cases hu : 65 ≤ c.toNat ∧ c.toNat ≤ 90
  · exfalso
    rw [toLower_of_upper c hu] at h
    obtain ⟨h1, h2⟩ := hu
    generalize c.toNat = n at h h1 h2
    interval_cases n <;> exact absurd h (by decide)
  · rwa [toLower_of_not_upper c hu] at h

theorem toLower_toLower (c : Char) : Char.toLower (Char.toLower c) = Char.toLower c := by
  by_cases hu : 65 ≤ c.toNat ∧ c.toNat ≤ 90
  · apply toLower_of_not_upper
    rw [toLower_toNat_of_upper c hu]
    omega
  · rw [toLower_of_not_upper c hu, toLower_of_not_upper c hu]

theorem toLower_ascii (c : Char) (h : c.toNat < 128) : (Char.toLower c).toNat < 128 := by
  by_cases hu : 65 ≤ c.toNat ∧ c.toNat ≤ 90
  · rw [toLower_toNat_of_upper c hu]
    omega
  · rwa [toLower_of_not_upper c hu]

/-! ## Column form -/

theorem split_no_sep (s : GoString) (sep : Char) : ∀ seg ∈ Split s sep, sep ∉ seg := by
  induction s with
  | nil =>
    intro seg hseg
    simp only [Split, List.mem_singleton] at hseg
    subst hseg
    simp
  | cons c cs ih =>
    intro seg hseg
    rw [Split] at hseg
    by_cases hc : c = sep
    · rw [if_pos hc] at hseg
      rcases List.mem_cons.mp hseg with rfl | hseg
      · simp
      · exact ih seg hseg
    · rw [if_neg hc] at hseg
      cases hs : Split cs sep with
      | nil =>
        rw [hs] at hseg
        simp only [List.mem_singleton] at hseg
        subst hseg
        simpa using fun h => hc h.symm
      | cons h t =>
        rw [hs] at hseg ih
        rcases List.mem_cons.mp hseg with rfl | hseg
        · intro hmem
          rcases List.mem_cons.mp hmem with hx | hx
          · exact hc hx.symm
          · exact ih h (List.mem_cons_self _ _) hx
        · exact ih seg (List.mem_cons_of_mem _ hseg)

theorem joinSegments_some_tail (segs : List GoString) :
    ∀ (acc j : GoString), joinSegments segs acc = some j → ∀ seg ∈ segs.tail, seg ≠ [] := by
  induction segs with
  | nil => intro acc j _ seg hseg; simp at hseg
  | cons s rest ih =>
    intro acc j h seg hseg
    cases rest with
    | nil => simp at hseg
    | cons next rest2 =>
      cases next with
      | nil => simp [joinSegments] at h
      | cons c cs =>
        rw [joinSegments] at h
        simp only [List.tail_cons] at hseg
        rcases List.mem_cons.mp hseg with rfl | hseg
        · simp
        · split at h
          · exact ih _ _ h seg (by simpa using hseg)
          · exact ih _ _ h seg (by simpa using hseg)

theorem columnForm_append_of_no_underscore (a x : GoString) (ha : '_' ∉ a)
    (hx : ColumnForm x) : ColumnForm (a ++ x) := by
  induction a with
  | nil => exact hx
  | cons c cs ih =>
    have hc : c ≠ '_' := fun h => ha (h ▸ List.mem_cons_self _ _)
    exact ⟨fun h => absurd h hc, ih (fun h => ha (List.mem_cons_of_mem _ h))⟩

theorem columnForm_of_no_underscore (a : GoString) (ha : '_' ∉ a) : ColumnForm a := by
  have h := columnForm_append_of_no_underscore a [] ha trivial
  rwa [List.append_nil] at h

theorem columnForm_of_append (a b : GoString) (h : ColumnForm (a ++ b)) : ColumnForm b := by
  induction a with
  | nil => exact h
  | cons c cs ih => exact ih h.2

theorem joinSpec_cons_eq_append (seg : GoString) (rest : List GoString) :
    ∃ t, joinSpec (seg :: rest) = seg ++ t := by
  cases rest with
  | nil => exact ⟨[], by simp [joinSpec]⟩
  | cons next rest2 => exact ⟨_, by rw [joinSpec, List.append_assoc]⟩

theorem startsPlain_append (a t : GoString) (ha : a ≠ []) :
    startsPlain (a ++ t) = startsPlain a := by
  cases a with
  | nil => exact absurd rfl ha
  | cons d ds => rfl

theorem columnForm_joinSpec (segs : List GoString) :
    (∀ seg ∈ segs, '_' ∉ seg) → (∀ seg ∈ segs.tail, seg ≠ []) →
      ColumnForm (joinSpec segs) := by
  induction segs with
  | nil => intro _ _; trivial
  | cons seg rest ih =>
    intro hno htail
    cases rest with
    | nil =>
      rw [joinSpec]
      exact columnForm_of_no_underscore seg (hno seg (List.mem_cons_self _ _))
    | cons next rest2 =>
      have hseg : '_' ∉ seg := hno seg (List.mem_cons_self _ _)
      have hnext : '_' ∉ next := hno next (by simp)
      have hne : next ≠ [] := htail next (by simp)
      have hJ : ColumnForm (joinSpec (next :: rest2)) :=
        ih (fun x hx => hno x (List.mem_cons_of_mem _ hx))
          (fun x hx => htail x (by
            simp only [List.tail_cons] at hx ⊢
            exact List.mem_cons_of_mem _ hx))
      rw [joinSpec, List.append_assoc]
      apply columnForm_append_of_no_underscore _ _ hseg
      by_cases hd : beginsWithDigit next = true
      · rw [if_pos hd]
        exact hJ
      · rw [if_neg hd]
        refine ⟨fun _ => ?_, hJ⟩
        obtain ⟨t, ht⟩ := joinSpec_cons_eq_append next rest2
        show startsPlain (joinSpec (next :: rest2)) = true
        rw [ht, startsPlain_append _ _ hne]
        cases next with
        | nil => exact absurd rfl hne
        | cons d ds =>
          have hd1 : d ≠ '_' := fun h => hnext (h ▸ List.mem_cons_self _ _)
          simp only [beginsWithDigit] at hd
          simp [startsPlain, hd1, hd]

theorem columnForm_map (g : Char → Char) (hu : ∀ c, g c = '_' → c = '_')
    (hd : ∀ c, (g c).isDigit = true → c.isDigit = true) (j : GoString)
    (h : ColumnForm j) : ColumnForm (j.map g) := by
  induction j with
  | nil => trivial
  | cons c rest ih =>
    refine ⟨fun hc => ?_, ih h.2⟩
    have hs := h.1 (hu c hc)
    cases rest with
    | nil => simp [startsPlain] at hs
    | cons d ds =>
      simp only [startsPlain, Bool.and_eq_true, decide_eq_true_eq, Bool.not_eq_true',
        List.map_cons] at hs ⊢
      refine ⟨fun hx => hs.1 (hu d hx), ?_⟩
      cases hg : (g d).isDigit with
      | false => rfl
      | true => rw [hd d hg] at hs; exact absurd hs.2 (by simp)

theorem columnForm_toLower (unicodeToLower : Char → Char)
    (hu : ∀ c, unicodeToLower c = '_' → c = '_')
    (hd : ∀ c, (unicodeToLower c).isDigit = true → c.isDigit = true) (j : GoString)
    (h : ColumnForm j) : ColumnForm (ToLower unicodeToLower j) := by
  unfold ToLower
  split
  · exact columnForm_map _ toLower_eq_underscore toLower_isDigit j h
  · exact columnForm_map _ hu hd j h

/-- Every transformed name is in column form. -/
theorem columnForm_columnName (unicodeToLower : Char → Char)
    (hu : ∀ c, unicodeToLower c = '_' → c = '_')
    (hd : ∀ c, (unicodeToLower c).isDigit = true → c.isDigit = true)
    (name k : GoString) (h : columnName unicodeToLower name = some k) : ColumnForm k := by
  unfold columnName at h
  cases hj : joinSegments (Split name '_') [] with
  | none => simp [hj] at h
  | some j =>
    simp only [hj, Option.some.injEq] at h
    have htail := joinSegments_some_tail _ _ _ hj
    rw [joinSegments_eq_joinSpec _ [] htail, List.nil_append] at hj
    have hj2 : joinSpec (Split name '_') = j := Option.some.inj hj
    rw [← h, ← hj2]
    exact columnForm_toLower _ hu hd _ (columnForm_joinSpec _ (split_no_sep name '_') htail)

theorem not_hasUnderscoreDigit_of_columnForm (k : GoString) (h : ColumnForm k) :
    ¬ HasUnderscoreDigit k := by
  rintro ⟨pre, d, post, hk, hd⟩
  rw [hk] at h
  have h2 := (columnForm_of_append pre _ h).1 rfl
  simp [startsPlain, hd] at h2

/-- C18: on a successful call no key of the returned map contains an underscore
immediately followed by a decimal digit, provided `unicode.ToLower` turns no other
character into an underscore or a decimal digit. (On a successful call the resolved names
of the stored fields have no empty segment after an underscore, so that is not assumed.) -/
theorem createUpdateMap_keys_no_underscore_digit (unicodeToLower : Char → Char)
    (hu : ∀ c, unicodeToLower c = '_' → c = '_')
    (hd : ∀ c, (unicodeToLower c).isDigit = true → c.isDigit = true)
    (req : List StructField) (isAdmin : Bool) (m : UpdateMap) (k : GoString)
    (h : CreateUpdateMap unicodeToLower req isAdmin = .returned (some m) none)
    (hk : HasKey m k) : ¬ HasUnderscoreDigit k := by
  rcases (fieldLoop_keys unicodeToLower isAdmin req [] m h k).mp hk with h0 | ⟨f, _, hc⟩
  · exact absurd rfl h0
  · obtain ⟨val, _, _, hcol⟩ := hc
    exact not_hasUnderscoreDigit_of_columnForm k
      (columnForm_columnName unicodeToLower hu hd _ k hcol)

theorem createUpdateMap_keys_no_underscore_digit_witness :
    (∀ c, Char.toLower c = '_' → c = '_') ∧
    (∀ c, (Char.toLower c).isDigit = true → c.isDigit = true) ∧
    CreateUpdateMap Char.toLower
        [exportedField "Limit24" "limit_24" "" (.ptr (float64Value 7)),
         exportedField "A1B" "a_1_b" "" (boolPtr (some true))] false
      = .returned (some [("a1_b".toList, .bool true), ("limit24".toList, .float64 7)]) none ∧
    HasKey [("a1_b".toList, Iface.bool true), ("limit24".toList, Iface.float64 7)]
      "limit24".toList ∧
    ¬ HasUnderscoreDigit "limit24".toList :=
  ⟨toLower_eq_underscore, toLower_isDigit, by decide, by decide,
    createUpdateMap_keys_no_underscore_digit Char.toLower toLower_eq_underscore
      toLower_isDigit
      [exportedField "Limit24" "limit_24" "" (.ptr (float64Value 7)),
        exportedField "A1B" "a_1_b" "" (boolPtr (some true))] false
      [("a1_b".toList, .bool true), ("limit24".toList, .float64 7)] "limit24".toList
      (by decide) (by decide)⟩

/-! ## Idempotence of the naming transformation -/

theorem joinSpec_cons_cons (c : Char) (h : GoString) (t : List GoString) :
    joinSpec ((c :: h) :: t) = c :: joinSpec (h :: t) := by
  cases t with
  | nil => rfl
  | cons n r => simp [joinSpec]

/-- Splitting a name in column form on underscores and joining the segments gives the
name back, and no segment after the first is empty. -/
theorem split_of_columnForm (s : GoString) (h : ColumnForm s) :
    (∀ seg ∈ (Split s '_').tail, seg ≠ []) ∧ joinSpec (Split s '_') = s := by
  induction s with
  | nil => exact ⟨by simp [Split], rfl⟩
  | cons c cs ih =>
    obtain ⟨htail, hjoin⟩ := ih h.2
    obtain ⟨segs, hs⟩ := split_head cs '_'
    rw [hs] at htail hjoin
    rw [Split]
    by_cases hc : c = '_'
    · rw [if_pos hc, hs]
      have hp := h.1 hc
      cases cs with
      | nil => simp [startsPlain] at hp
      | cons d ds =>
        simp only [startsPlain, Bool.and_eq_true, decide_eq_true_eq,
          Bool.not_eq_true'] at hp
        have htw : List.takeWhile (fun c => decide (c ≠ '_')) (d :: ds)
            = d :: List.takeWhile (fun c => decide (c ≠ '_')) ds := by
          rw [List.takeWhile_cons, if_pos (by simpa using hp.1)]
        rw [htw] at htail hjoin ⊢
        constructor
        · intro seg hseg
          simp only [List.tail_cons] at hseg htail
          rcases List.mem_cons.mp hseg with rfl | hseg
          · simp
          · exact htail seg hseg
        · rw [joinSpec, hjoin, hc]
          simp [beginsWithDigit, hp.2]
    · rw [if_neg hc, hs]
      constructor
      · intro seg hseg
        exact htail seg hseg
      · show joinSpec ((c :: _) :: segs) = c :: cs
        rw [joinSpec_cons_cons, hjoin]

theorem toLower_idempotent (unicodeToLower : Char → Char)
    (hidem : ∀ c, unicodeToLower (unicodeToLower c) = unicodeToLower c)
    (hup : ∀ c, Char.toLower (unicodeToLower c) = unicodeToLower c) (j : GoString) :
    ToLower unicodeToLower (ToLower unicodeToLower j) = ToLower unicodeToLower j := by
  unfold ToLower
  by_cases hj : j.all (fun c => decide (c.toNat < 128)) = true
  · have hk : (j.map Char.toLower).all (fun c => decide (c.toNat < 128)) = true := by
      rw [List.all_eq_true] at hj ⊢
      intro x hx
      obtain ⟨c, hc, rfl⟩ := List.mem_map.mp hx
      have := hj c hc
      simp only [decide_eq_true_eq] at this ⊢
      exact toLower_ascii c this
    rw [if_pos hj, if_pos hk, List.map_map]
    apply List.map_congr_left
    intro c _
    exact toLower_toLower c
  · rw [if_neg hj]
    split
    · rw [List.map_map]
      apply List.map_congr_left
      intro c _
      exact hup c
    · rw [List.map_map]
      apply List.map_congr_left
      intro c _
      exact hidem c

/-- C19: the naming transformation is idempotent: a name whose segments after each
underscore are non-empty has a transformed name, and transforming that again returns it
unchanged; this for a `unicode.ToLower` that turns no other character into an underscore
or a decimal digit, is idempotent and never yields one of `A`..`Z`. -/
theorem columnName_idempotent (unicodeToLower : Char → Char)
    (hu : ∀ c, unicodeToLower c = '_' → c = '_')
    (hd : ∀ c, (unicodeToLower c).isDigit = true → c.isDigit = true)
    (hidem : ∀ c, unicodeToLower (unicodeToLower c) = unicodeToLower c)
    (hup : ∀ c, Char.toLower (unicodeToLower c) = unicodeToLower c)
    (name : GoString) (hseg : ∀ seg ∈ (Split name '_').tail, seg ≠ []) :
    ∃ k, columnName unicodeToLower name = some k ∧
      columnName unicodeToLower k = some k := by
  have hname : columnName unicodeToLower name
      = some (ToLower unicodeToLower (joinSpec (Split name '_'))) := by
    unfold columnName
    simp only [joinSegments_eq_joinSpec _ [] hseg, List.nil_append]
  refine ⟨_, hname, ?_⟩
  have hcf := columnForm_columnName unicodeToLower hu hd _ _ hname
  obtain ⟨htail, hjoin⟩ := split_of_columnForm _ hcf
  unfold columnName
  simp only [joinSegments_eq_joinSpec _ [] htail, List.nil_append, hjoin]
  rw [toLower_idempotent unicodeToLower hidem hup]

theorem columnName_idempotent_witness :
    (∀ c, Char.toLower c = '_' → c = '_') ∧
    (∀ c, (Char.toLower c).isDigit = true → c.isDigit = true) ∧
    (∀ c, Char.toLower (Char.toLower c) = Char.toLower c) ∧
    (∀ seg ∈ (Split "Limit_24_Max".toList '_').tail, seg ≠ []) ∧
    (∃ k, columnName Char.toLower "Limit_24_Max".toList = some k ∧
      columnName Char.toLower k = some k) ∧
    columnName Char.toLower "Limit_24_Max".toList = some "limit24_max".toList ∧
    columnName Char.toLower "limit24_max".toList = some "limit24_max".toList ∧
    columnName Char.toLower "limit24".toList = some "limit24".toList ∧
    columnName Char.toLower "a1_b".toList = some "a1_b".toList :=
  ⟨toLower_eq_underscore, toLower_isDigit, toLower_toLower, by decide,
    columnName_idempotent Char.toLower toLower_eq_underscore toLower_isDigit
      toLower_toLower toLower_toLower "Limit_24_Max".toList (by decide),
    by decide, by decide, by decide, by decide⟩

end GormUpdateMap
